import Mathlib

/-!
Pointwise-copy detection (`src/CopyElision.cpp`).

A shallow embedding of the copy-elision analysis: the classifier
`get_pointwise_copy_producer`, the collector `get_pointwise_copies`, the
diagnostic rendering `print_function`, and the parts of the IR they read.
Types that live in other files of the compiler (`Expr`, `Function`,
`ExternFuncArgument`, `find_direct_calls`, `equal`) are modelled from the data
model of the specification; each such definition says so.

The classifier and the collector are given twice: as the value they return,
and (`get_pointwise_copy_producer_run`, `get_pointwise_copies_run`) together
with what their diagnostics evaluate: the rendering of a function found to be
a copy, whose internal error ends the call, and a read of `f.args()` that can
go past its end.  The two agree whenever the call returns, and it returns
whenever every extern argument is of a valid kind and no such read is out of
range.
-/

namespace Halide

/-! ## The program representation -/

/-- The kinds of `Call` node.  The analysis only distinguishes `Halide`
(a call to another pipeline function) from all the others. -/
inductive CallType where
  | Image
  | Extern
  | ExternCPlusPlus
  | PureExtern
  | Halide
  | Intrinsic
  | PureIntrinsic
  deriving DecidableEq, Repr

/-- Modelled from the spec: the function a `Call` node or an extern argument
points to (`call->func`, `arg.func`).  The pass reads its `name()`, its
`args()` and its `dimensions()`, the latter being the number of `args`. -/
structure FunctionPtr (E : Type) where
  name : String
  args : List E

/-- Modelled from the spec: the expression tree ("a tagged variant tree").
`Call` carries `name`, `args`, `call_type`, `func` and `value_index`; the other
constructors stand for the node kinds that are not calls. -/
inductive Expr where
  | IntImm (value : Int)
  | StringImm (value : String)
  | Variable (name : String)
  | Add (a b : Expr)
  | Sub (a b : Expr)
  | Mul (a b : Expr)
  | Call (name : String) (args : List Expr) (call_type : CallType)
      (func : FunctionPtr Expr) (value_index : Int)

/-- Modelled from the spec: the tagged variants of an extern argument.
`UndefinedArg` is the variant that is none of the four meaningful ones. -/
inductive ExternFuncArgument where
  | UndefinedArg
  | FuncArg (func : FunctionPtr Expr)
  | BufferArg (name : String)
  | ExprArg (expr : Expr)
  | ImageParamArg (name : String)

/-- Modelled from the spec: one update (recurrence) stage of a function. -/
structure Definition where
  args : List Expr
  values : List Expr

/-- Modelled from the spec: a pipeline function.  `is_inlined` is the signal
`schedule().compute_level().is_inlined()`. -/
structure Function where
  name : String
  args : List Expr
  values : List Expr
  updates : List Definition
  has_extern_definition : Bool
  extern_function_name : String
  extern_arguments : List ExternFuncArgument
  is_inlined : Bool

/-- Modelled from the spec: `dimensions` is the length of `args`. -/
def Function.dimensions (f : Function) : Nat := f.args.length

/-- Modelled from the spec: `dimensions` of the function behind a pointer. -/
def FunctionPtr.dimensions (g : FunctionPtr Expr) : Nat := g.args.length

/-- Modelled from the spec: a function has an update definition when it has
at least one update stage. -/
def Function.has_update_definition (f : Function) : Bool := !f.updates.isEmpty

/-- The result record of `CopyElision.h`. -/
structure CopyPair where
  prod : String
  cons : String
  deriving DecidableEq, Repr

/-- The environment `std::map<std::string, Function>`, as the sequence of its
entries in iteration order. -/
abbrev Env := List (String × Function)

/-- The invariant of `std::map`: iteration visits strictly ascending keys. -/
def Env.is_map (env : Env) : Prop := (env.map Prod.fst).Pairwise (fun a b => a < b)

/-- The counter map `std::map<std::string, int> num_callers`, as an association
list with at most one entry per key when built by `NumCallers.incr`.  Counts are
unbounded integers: `int` overflow would need more than `2^31 - 1` calls. -/
abbrev NumCallers := List (String × Int)

/-- The lookup `num_callers.find(k)`: `none` stands for `end()`. -/
def NumCallers.find : NumCallers → String → Option Int
  | [], _ => none
  | (k', v) :: rest, k => if k' = k then some v else NumCallers.find rest k

/-- The update `num_callers[k] += 1`: a missing key is created with value `0`
and then incremented. -/
def NumCallers.incr : NumCallers → String → NumCallers
  | [], k => [(k, 1)]
  | (k', v) :: rest, k =>
    if k' = k then (k', v + 1) :: rest else (k', v) :: NumCallers.incr rest k

mutual
/-- Modelled from the spec: `equal` of `IREquality.h`, structural equality of
two expression trees (same shape, same leaves; the callee pointer of a call
is not part of the tree). -/
def equal : Expr → Expr → Bool
  | .IntImm a, .IntImm b => decide (a = b)
  | .StringImm a, .StringImm b => decide (a = b)
  | .Variable a, .Variable b => decide (a = b)
  | .Add a b, .Add c d => equal a c && equal b d
  | .Sub a b, .Sub c d => equal a c && equal b d
  | .Mul a b, .Mul c d => equal a c && equal b d
  | .Call n xs ct _ vi, .Call n2 ys ct2 _ vi2 =>
    decide (n = n2) && decide (ct = ct2) && decide (vi = vi2) && equal_list xs ys
  | _, _ => false
/-- Structural equality of two argument vectors. -/
def equal_list : List Expr → List Expr → Bool
  | [], [] => true
  | a :: xs, b :: ys => equal a b && equal_list xs ys
  | _, _ => false
end

mutual
/-- Modelled from the spec: the internal call sites of one expression, in
traversal order, one entry per site (not deduplicated). -/
def calls_of_expr : Expr → List (String × FunctionPtr Expr)
  | .IntImm _ => []
  | .StringImm _ => []
  | .Variable _ => []
  | .Add a b => calls_of_expr a ++ calls_of_expr b
  | .Sub a b => calls_of_expr a ++ calls_of_expr b
  | .Mul a b => calls_of_expr a ++ calls_of_expr b
  | .Call n xs ct func _ =>
    (if ct = CallType.Halide then [(n, func)] else []) ++ calls_of_exprs xs
/-- The internal call sites of a sequence of expressions. -/
def calls_of_exprs : List Expr → List (String × FunctionPtr Expr)
  | [] => []
  | e :: es => calls_of_expr e ++ calls_of_exprs es
end

/-- The internal call sites of one update stage. -/
def calls_of_definition (d : Definition) : List (String × FunctionPtr Expr) :=
  calls_of_exprs d.args ++ calls_of_exprs d.values

/-- The internal call sites of a sequence of update stages. -/
def calls_of_updates : List Definition → List (String × FunctionPtr Expr)
  | [] => []
  | d :: ds => calls_of_definition d ++ calls_of_updates ds

/-- Modelled from the spec: `find_direct_calls` of `FindCalls.h`, which is not
part of the sources at hand.  Following section 4.1 it yields the callees
referenced by internal-call expressions anywhere in the value expressions and
in the update definitions, one entry per call site. -/
def find_direct_calls (f : Function) : List (String × FunctionPtr Expr) :=
  calls_of_exprs f.values ++ calls_of_updates f.updates

/-! ## The analysis -/

/-- The loop `for (j = 0; j < f.dimensions(); ++j)` of the argument check,
entered only when both vectors have `f.dimensions()` elements: it fails at
the first position where `equal` fails. -/
def args_loop : List Expr → List Expr → Bool
  | a :: xs, b :: ys => if !equal a b then false else args_loop xs ys
  | _, _ => true

/-- The extern branch of `get_pointwise_copy_producer`: the loop over
`f.extern_arguments()` with the running value of `prod`. -/
def extern_loop : String → List ExternFuncArgument → String
  | prod, [] => prod
  | prod, arg :: rest =>
    match arg with
    | .FuncArg g =>
      if prod ≠ "" ∧ prod ≠ g.name then "" else extern_loop g.name rest
    | _ => extern_loop prod rest

/-- The plain branch of `get_pointwise_copy_producer`: the loop over
`f.values()`, with the slot index `i` and the running value of `prod`.
A `Call` whose `call_type` is not `Halide` falls through both branches of the
source's `if`/`else if` and leaves `prod` unchanged.  This is the value the
loop yields; what the diagnostics of its exits read is in `values_loop_run`. -/
def values_loop (f : Function) (num_callers : NumCallers) :
    Nat → String → List Expr → String
  | _, prod, [] => prod
  | i, prod, val :: rest =>
    match val with
    | .Call name _ call_type func value_index =>
      if call_type = CallType.Halide then
        if prod ≠ "" ∧ prod ≠ name then ""
        else if (match NumCallers.find num_callers name with
                 | some n => decide (n > 1)
                 | none => false) then ""
        else if f.dimensions ≠ func.dimensions then ""
        else if (i : Int) ≠ value_index then ""
        else if !args_loop f.args func.args then ""
        else values_loop f num_callers (i + 1) name rest
      else values_loop f num_callers (i + 1) prod rest
    | _ =>
      if prod ≠ "" then "" else values_loop f num_callers (i + 1) prod rest

/-- The classifier `get_pointwise_copy_producer(f, num_callers)`: the name it
returns, where the empty string means "not a copy".  What its diagnostics
evaluate (the rendering `print_function(f)` on the accepting exits, the read
`f.args()[i]` on the exit of the argument check), and so whether the call
returns at all, is in `get_pointwise_copy_producer_run`. -/
def get_pointwise_copy_producer (f : Function) (num_callers : NumCallers) : String :=
  if f.has_update_definition then ""
  else if f.has_extern_definition ∧ f.extern_function_name = "halide_buffer_copy" then
    extern_loop "" f.extern_arguments
  else values_loop f num_callers 0 "" f.values

/-- The first loop of `get_pointwise_copies`: one increment per entry of
`find_direct_calls` of every function of the environment. -/
def build_num_callers (env : Env) : NumCallers :=
  env.foldl
    (fun m caller => (find_direct_calls caller.2).foldl (fun m2 callee => NumCallers.incr m2 callee.1) m)
    []

/-- The second loop of `get_pointwise_copies` over a given counter map. -/
def collect_pairs (num_callers : NumCallers) (env : Env) : List CopyPair :=
  env.foldl
    (fun acc iter =>
      if iter.2.is_inlined then acc
      else
        let copied_from := get_pointwise_copy_producer iter.2 num_callers
        if copied_from ≠ "" then acc ++ [⟨copied_from, iter.1⟩] else acc)
    []

/-- The collector `get_pointwise_copies(env)`: the list it returns.  The
diagnostic of the classifier is added by `get_pointwise_copies_run`. -/
def get_pointwise_copies (env : Env) : List CopyPair :=
  collect_pairs (build_num_callers env) env

/-! ## The diagnostic rendering -/

/-- Modelled from the spec: the collaborators of the diagnostic rendering
that live in other files: the printing of an expression (`stream << e`), the
number of outputs of the function behind a pointer (`input.outputs()`),
whether its storage level equals its compute level
(`store_level == compute_level`), and the call expression built by
`make_call_to_extern_definition`. -/
structure Renderer where
  expr : Expr → String
  outputs : FunctionPtr Expr → Nat
  same_level : FunctionPtr Expr → Bool
  extern_call : Function → List Expr → Expr

/-- The loop `for (i = 0; i < n; ++i)` of `print_function` that writes every
element and `", "` after each element but the last. -/
def print_separated (render : Expr → String) : List Expr → String
  | [] => ""
  | [a] => render a
  | a :: b :: rest => render a ++ ", " ++ print_separated render (b :: rest)

/-- The buffers `print_function` passes for an extern argument that is a
function: its output buffers when storage and compute level coincide, and one
temporary buffer per output otherwise. -/
def func_arg_buffers (r : Renderer) (input : FunctionPtr Expr) : List Expr :=
  if r.same_level input then
    (List.range (r.outputs input)).map (fun k =>
      Expr.Variable
        (input.name ++ (if r.outputs input > 1 then "." ++ toString k else "") ++ ".buffer"))
  else
    (List.range (r.outputs input)).map (fun k =>
      Expr.Variable (input.name ++ "." ++ toString k ++ ".tmp_buffer"))

/-- The loop of `print_function` over the extern arguments, building
`extern_call_args`; an argument of none of the four kinds raises
`internal_error`. -/
def extern_call_args (r : Renderer) : List ExternFuncArgument → Except String (List Expr)
  | [] => .ok []
  | arg :: rest =>
    match arg with
    | .ExprArg e => (extern_call_args r rest).map (fun l => e :: l)
    | .FuncArg input => (extern_call_args r rest).map (fun l => func_arg_buffers r input ++ l)
    | .BufferArg name =>
      (extern_call_args r rest).map (fun l => Expr.Variable (name ++ ".buffer") :: l)
    | .ImageParamArg name =>
      (extern_call_args r rest).map (fun l => Expr.Variable (name ++ ".buffer") :: l)
    | .UndefinedArg => .error "Bad ExternFuncArgument type\n"

/-- The diagnostic rendering `print_function(f)`; `.error` is the
`internal_error` of the extern branch. -/
def print_function (r : Renderer) (f : Function) : Except String String :=
  if f.has_extern_definition then
    match extern_call_args r f.extern_arguments with
    | .error e => .error e
    | .ok args =>
      .ok (f.name ++ "(" ++ print_separated r.expr f.args ++ ") = " ++
        r.expr (r.extern_call f args))
  else
    .ok (f.name ++ "(" ++ print_separated r.expr f.args ++ ") = " ++
      (if f.values.length > 1 then "\x7b" else "") ++ print_separated r.expr f.values ++
      (if f.values.length > 1 then "\x7d" else ""))

/-- The outcome of the read `f.args()[i]` past the end of the vector:
undefined behaviour in the source, kept as a failure of the call. -/
def out_of_range : String := "f.args()[i]: index out of range"

/-- The plain branch with the diagnostics of its exits.  The exit of the
argument check (lines 97-102) prints `f.args()[i]`, indexed by the slot `i`
and not by the position `j`, which reads past the end of `f.args()` when
`i` is not below `f.dimensions()`; the other rejecting exits print names
only. -/
def values_loop_run (f : Function) (num_callers : NumCallers) :
    Nat → String → List Expr → Except String String
  | _, prod, [] => .ok prod
  | i, prod, val :: rest =>
    match val with
    | .Call name _ call_type func value_index =>
      if call_type = CallType.Halide then
        if prod ≠ "" ∧ prod ≠ name then .ok ""
        else if (match NumCallers.find num_callers name with
                 | some n => decide (n > 1)
                 | none => false) then .ok ""
        else if f.dimensions ≠ func.dimensions then .ok ""
        else if (i : Int) ≠ value_index then .ok ""
        else if !args_loop f.args func.args then
          (if i < f.dimensions then .ok "" else .error out_of_range)
        else values_loop_run f num_callers (i + 1) name rest
      else values_loop_run f num_callers (i + 1) prod rest
    | _ =>
      if prod ≠ "" then .ok "" else values_loop_run f num_callers (i + 1) prod rest

/-- The accepting exit of both branches:
`if (!prod.empty()) debug(0) << ... << print_function(f)` evaluates the
rendering of `f` before `prod` is returned, so its `internal_error` aborts
the call; nothing is rendered for an empty `prod`. -/
def with_diagnostic (r : Renderer) (f : Function) (prod : String) : Except String String :=
  if prod ≠ "" then
    match print_function r f with
    | .error e => .error e
    | .ok _ => .ok prod
  else .ok prod

/-- The classifier `get_pointwise_copy_producer(f, num_callers)` together
with what its diagnostics evaluate: the rendering of `f` on the accepting
exits and the read `f.args()[i]` on the exit of the argument check. -/
def get_pointwise_copy_producer_run (r : Renderer) (f : Function) (num_callers : NumCallers) :
    Except String String :=
  if f.has_update_definition then .ok ""
  else if f.has_extern_definition ∧ f.extern_function_name = "halide_buffer_copy" then
    with_diagnostic r f (extern_loop "" f.extern_arguments)
  else
    match values_loop_run f num_callers 0 "" f.values with
    | .error e => .error e
    | .ok prod => with_diagnostic r f prod

/-- The second loop of `get_pointwise_copies` with the classifier's
diagnostic: the first fatal error ends the whole call. -/
def collect_pairs_run (r : Renderer) (num_callers : NumCallers) :
    Env → List CopyPair → Except String (List CopyPair)
  | [], acc => .ok acc
  | iter :: rest, acc =>
    if iter.2.is_inlined then collect_pairs_run r num_callers rest acc
    else
      match get_pointwise_copy_producer_run r iter.2 num_callers with
      | .error e => .error e
      | .ok copied_from =>
        collect_pairs_run r num_callers rest
          (if copied_from ≠ "" then acc ++ [⟨copied_from, iter.1⟩] else acc)

/-- The collector `get_pointwise_copies(env)` with the classifier's
diagnostic. -/
def get_pointwise_copies_run (r : Renderer) (env : Env) : Except String (List CopyPair) :=
  collect_pairs_run r (build_num_callers env) env []

/-! ## Notions used to state the properties -/

/-- The function stored under key `k`, `env.at(k)`; `none` when `k` is no key. -/
def Env.lookup : Env → String → Option Function
  | [], _ => none
  | (k', f) :: rest, k => if k' = k then some f else Env.lookup rest k

/-- The test that selects the extern branch of the classifier. -/
def Function.is_buffer_copy (f : Function) : Prop :=
  f.has_extern_definition = true ∧ f.extern_function_name = "halide_buffer_copy"

instance (f : Function) : Decidable f.is_buffer_copy := by
  unfold Function.is_buffer_copy; infer_instance

/-- What one iteration of the second loop appends for an entry, if anything. -/
def pair_of_entry (num_callers : NumCallers) (iter : String × Function) : Option CopyPair :=
  if iter.2.is_inlined then none
  else if get_pointwise_copy_producer iter.2 num_callers ≠ "" then
    some ⟨get_pointwise_copy_producer iter.2 num_callers, iter.1⟩
  else none

mutual
/-- The number of internal call sites referencing `n` in one expression,
counted directly on the tree. -/
def expr_call_sites (n : String) : Expr → Nat
  | .IntImm _ => 0
  | .StringImm _ => 0
  | .Variable _ => 0
  | .Add a b => expr_call_sites n a + expr_call_sites n b
  | .Sub a b => expr_call_sites n a + expr_call_sites n b
  | .Mul a b => expr_call_sites n a + expr_call_sites n b
  | .Call name xs ct _ _ =>
    (if ct = CallType.Halide ∧ name = n then 1 else 0) + exprs_call_sites n xs
/-- The number of internal call sites referencing `n` in a sequence of
expressions. -/
def exprs_call_sites (n : String) : List Expr → Nat
  | [] => 0
  | e :: es => expr_call_sites n e + exprs_call_sites n es
end

/-- The number of internal call sites referencing `n` in one function: those
of its values and those of its update definitions. -/
def function_call_sites (n : String) (f : Function) : Nat :=
  exprs_call_sites n f.values +
    (f.updates.map (fun d => exprs_call_sites n d.args + exprs_call_sites n d.values)).sum

/-- The number of internal call sites referencing `n` over all functions of
the environment. -/
def total_call_sites (n : String) (env : Env) : Nat :=
  (env.map (fun it => function_call_sites n it.2)).sum

/-- The number of entries of a callee list whose key is `n`. -/
def key_count (n : String) (l : List (String × FunctionPtr Expr)) : Nat :=
  l.countP (fun c => decide (c.1 = n))

/-- The single-reader test of the plain branch passes for `p`: `p` is absent
from the counter map or its count is at most one. -/
def single_reader (nc : NumCallers) (p : String) : Prop :=
  ∀ n, NumCallers.find nc p = some n → n ≤ 1

/-- What the loop has checked of slot `k` (counted from the slot the loop
started at, whose index is `i`) when that slot is an internal call. -/
def slot_checked (f : Function) (nc : NumCallers) (i : Nat) (p : String) (k : Nat)
    (name : String) (func : FunctionPtr Expr) (vi : Int) : Prop :=
  (name ≠ "" → name = p) ∧ single_reader nc name ∧ f.dimensions = func.dimensions ∧
    vi = ((i + k : Nat) : Int) ∧ args_loop f.args func.args = true

/-- The names of the function references among the extern arguments, in
order of appearance. -/
def func_ref_names : List ExternFuncArgument → List String
  | [] => []
  | .FuncArg g :: rest => g.name :: func_ref_names rest
  | .UndefinedArg :: rest => func_ref_names rest
  | .BufferArg _ :: rest => func_ref_names rest
  | .ExprArg _ :: rest => func_ref_names rest
  | .ImageParamArg _ :: rest => func_ref_names rest

/-- The extern loop as it acts on the referenced names alone. -/
def names_loop : String → List String → String
  | prod, [] => prod
  | prod, n :: rest => if prod ≠ "" ∧ prod ≠ n then "" else names_loop n rest

/-- Slot `i` of `f`, holding `v`, is a copy of slot `i` of `p`: `v` is an
internal call to `p`, `p` passes the single-reader test, the callee has the
dimensions of `f`, the call reads output `i`, and the index arguments of `f`
are structurally equal, position by position, to those of the callee. -/
def slot_copies (f : Function) (nc : NumCallers) (p : String) (i : Nat) (v : Expr) : Prop :=
  ∃ xs func vi, v = Expr.Call p xs CallType.Halide func vi ∧ single_reader nc p ∧
    func.dimensions = f.dimensions ∧ vi = (i : Int) ∧
    ∀ (j : Nat) a b, f.args[j]? = some a → func.args[j]? = some b → equal a b = true

/-- Some slot of `vs` (the slots from index `i` on) is an internal call whose
argument check fails at a slot index that is not below `f.dimensions`: the
slot where the diagnostic reads `f.args()[i]` out of range. -/
def stray_read (f : Function) (i : Nat) (vs : List Expr) : Prop :=
  ∃ (k : Nat) (name : String) (xs : List Expr) (func : FunctionPtr Expr) (vi : Int),
    vs[k]? = some (Expr.Call name xs CallType.Halide func vi) ∧
    args_loop f.args func.args = false ∧ f.dimensions ≤ i + k

/-- An extern argument is of one of the four kinds `print_function` accepts. -/
def ExternFuncArgument.is_valid : ExternFuncArgument → Bool
  | .UndefinedArg => false
  | _ => true

/-! ## Example pipelines -/

/-- The index variable `x`. -/
def vx : Expr := .Variable "x"

/-- The index variable `y`. -/
def vy : Expr := .Variable "y"

/-- A plain function `name(x, y) = values`, not inlined. -/
def plain_fn (name : String) (values : List Expr) : Function :=
  ⟨name, [vx, vy], values, [], false, "", [], false⟩

/-- The call `name(args)[idx]` to a function defined over `(x, y)`. -/
def call_xy (name : String) (args : List Expr) (idx : Int) : Expr :=
  .Call name args .Halide ⟨name, [vx, vy]⟩ idx

/-- An extern function `name` of the given arguments, defined by a call to
`halide_buffer_copy` with the given extern arguments; it has no values. -/
def buffer_copy_fn (name : String) (args : List Expr) (extern_args : List ExternFuncArgument) :
    Function :=
  ⟨name, args, [], [], true, "halide_buffer_copy", extern_args, false⟩

/-- A pointer to a function `name` defined over `(x, y)`. -/
def ptr_xy (name : String) : FunctionPtr Expr := ⟨name, [vx, vy]⟩

/-- The consumer `c(x, y) = p(x + 1, y)`. -/
def shifted_c : Function := plain_fn "c" [call_xy "p" [.Add vx (.IntImm 1), vy] 0]

/-- The pipeline `c(x, y) = p(x + 1, y); p(x, y) = x + y`. -/
def scenario_C : Env := [("c", shifted_c), ("p", plain_fn "p" [.Add vx vy])]

/-- The pipeline in which `p` is read by `d(x, y) = p(x, y) * 2` and by
`e(x, y) = p(x, y) + 1`, and `c` is an extern `halide_buffer_copy` of `p`. -/
def env_two_readers : Env :=
  [("c", buffer_copy_fn "c" [vx, vy] [.FuncArg (ptr_xy "p")]),
   ("d", plain_fn "d" [.Mul (call_xy "p" [vx, vy] 0) (.IntImm 2)]),
   ("e", plain_fn "e" [.Add (call_xy "p" [vx, vy] 0) (.IntImm 1)]),
   ("p", plain_fn "p" [.Add vx vy])]

/-- The pipeline of scenario B: `input(x, y) = x + y`,
`input_copy(x, y) = input(x, y)`, `work(x, y) = input_copy(x, y) * 2`,
`output(x, y) = work(x, y)`, in key order. -/
def scenario_B : Env :=
  [("input", plain_fn "input" [.Add vx vy]),
   ("input_copy", plain_fn "input_copy" [call_xy "input" [vx, vy] 0]),
   ("output", plain_fn "output" [call_xy "work" [vx, vy] 0]),
   ("work", plain_fn "work" [.Mul (call_xy "input_copy" [vx, vy] 0) (.IntImm 2)])]

/-- The tuple consumer `t(x, y) = {x + y, q(x, y)[1]}`: its first slot is
arithmetic, its second slot reads the second output of `q`. -/
def half_copy : Function := plain_fn "t" [.Add vx vy, call_xy "q" [vx, vy] 1]

/-- The pipeline in which `c`, a one-dimensional extern `halide_buffer_copy`,
reads the two-dimensional `p(x, y) = x + y`, and `t` as above reads
`q(x, y) = {x + y, x - y}`. -/
def env_partial_copies : Env :=
  [("c", buffer_copy_fn "c" [vx] [.FuncArg (ptr_xy "p")]),
   ("p", plain_fn "p" [.Add vx vy]),
   ("q", plain_fn "q" [.Add vx vy, .Sub vx vy]),
   ("t", half_copy)]

/-- The pipeline of scenario A: `f(x, y) = x + y`, `g(x, y) = x - y`,
`h(x, y) = g(x, y)`, `tile(x, y) = {f(x, y), g(x, y)}`, in key order. -/
def scenario_A : Env :=
  [("f", plain_fn "f" [.Add vx vy]),
   ("g", plain_fn "g" [.Sub vx vy]),
   ("h", plain_fn "h" [call_xy "g" [vx, vy] 0]),
   ("tile", plain_fn "tile" [call_xy "f" [vx, vy] 0, call_xy "g" [vx, vy] 0])]

/-- The two-slot tuple copy `t(x, y) = {n(x, y)[0], n(x, y)[1]}`. -/
def tuple_copy : Function := plain_fn "t" [call_xy "n" [vx, vy] 0, call_xy "n" [vx, vy] 1]

/-- An extern `halide_buffer_copy` whose two function references are a
function with the empty name and the function `a`. -/
def copy_of_unnamed_and_a : Function :=
  buffer_copy_fn "c" [vx, vy] [.FuncArg ⟨"", [vx, vy]⟩, .FuncArg (ptr_xy "a")]

/-- The pipeline with two extern `halide_buffer_copy` functions `c1` and `c2`
that both read `p(x, y) = x + y`. -/
def env_two_copies : Env :=
  [("c1", buffer_copy_fn "c1" [vx, vy] [.FuncArg (ptr_xy "p")]),
   ("c2", buffer_copy_fn "c2" [vx, vy] [.FuncArg (ptr_xy "p")]),
   ("p", plain_fn "p" [.Add vx vy])]

/-- The function `r(x, y) = p(x, y)` with the update stage
`r(x, y) = r(x, y) + 1`. -/
def copy_with_update : Function :=
  ⟨"r", [vx, vy], [call_xy "p" [vx, vy] 0],
    [⟨[vx, vy], [.Add (call_xy "r" [vx, vy] 0) (.IntImm 1)]⟩], false, "", [], false⟩

/-- The pipeline `p(x, y) = x + y` and `r` as above. -/
def env_with_update : Env := [("p", plain_fn "p" [.Add vx vy]), ("r", copy_with_update)]

/-- The copy `b(x, y) = a(x, y)`, scheduled inline. -/
def inlined_copy : Function := ⟨"b", [vx, vy], [call_xy "a" [vx, vy] 0], [], false, "", [], true⟩

/-- The pipeline `a(x, y) = x + y` and the inlined `b(x, y) = a(x, y)`. -/
def env_inlined : Env := [("a", plain_fn "a" [.Add vx vy]), ("b", inlined_copy)]

/-- An extern `halide_buffer_copy` whose only extern argument is of no valid
kind. -/
def malformed_copy : Function := buffer_copy_fn "c" [vx, vy] [.UndefinedArg]

/-- The pipeline that holds `malformed_copy` and `p(x, y) = x + y`. -/
def env_malformed : Env := [("c", malformed_copy), ("p", plain_fn "p" [.Add vx vy])]

/-- An extern `halide_buffer_copy` of `p` with a further extern argument of no
valid kind. -/
def malformed_copy_of_p : Function :=
  buffer_copy_fn "c" [vx, vy] [.FuncArg (ptr_xy "p"), .UndefinedArg]

/-- The pipeline `c = halide_buffer_copy(p)`, `p(x, y) = x + y`. -/
def env_buffer_copy : Env :=
  [("c", buffer_copy_fn "c" [vx, vy] [.FuncArg (ptr_xy "p")]),
   ("p", plain_fn "p" [.Add vx vy])]

/-- An extern function defined by `my_extern` with an image-parameter
argument and no values. -/
def opaque_routine : Function :=
  ⟨"e", [vx, vy], [], [], true, "my_extern", [.ImageParamArg "img"], false⟩

/-- The pipeline that holds `opaque_routine` alone. -/
def env_opaque_only : Env := [("e", opaque_routine)]

/-- The call `sin_f32(x)` to an extern routine: a `Call` node that is not of
the `Halide` kind and points to no function. -/
def sin_of_x : Expr := .Call "sin_f32" [vx] .PureExtern ⟨"", []⟩ 0

/-- The tuple `t(x, y) = {p(x, y)[0], sin_f32(x)}`. -/
def copy_then_extern_call : Function := plain_fn "t" [call_xy "p" [vx, vy] 0, sin_of_x]

/-- The tuple `t(x, y) = {p(x, y)[0], x + y}`. -/
def copy_then_sum : Function := plain_fn "t" [call_xy "p" [vx, vy] 0, .Add vx vy]

/-- A renderer for examples: variables print as their names, every other
expression as `?`; every function has one output stored at its compute
level. -/
def sample_renderer : Renderer :=
  ⟨fun e => match e with
    | .Variable n => n
    | _ => "?",
   fun _ => 1, fun _ => true, fun _ l => .Call "extern" l .Extern ⟨"", []⟩ 0⟩

/-- The tuple consumer `t(x, y) = {x + y, q(x, y)[1], sin_f32(x)}`. -/
def three_slot_consumer : Function :=
  plain_fn "t" [.Add vx vy, call_xy "q" [vx, vy] 1,
    .Call "sin_f32" [vx] .PureExtern ⟨"", []⟩ 0]

/-- The pipeline `q(x, y) = {x + y, x - y}` and `t` as above. -/
def env_three_slots : Env :=
  [("q", plain_fn "q" [.Add vx vy, .Sub vx vy]), ("t", three_slot_consumer)]

/-- An extern `halide_buffer_copy` whose two function references are the
function `a` and a function with the empty name, in that order. -/
def copy_of_a_and_unnamed : Function :=
  buffer_copy_fn "c" [vx, vy] [.FuncArg (ptr_xy "a"), .FuncArg ⟨"", [vx, vy]⟩]

/-- An extern function defined by `my_extern`, with no values, whose extern
arguments are an argument of no valid kind, a reference to `p` and the
expression `x`. -/
def opaque_with_arguments : Function :=
  ⟨"e", [vx, vy], [], [], true, "my_extern",
    [.UndefinedArg, .FuncArg (ptr_xy "p"), .ExprArg vx], false⟩

/-- The index variable `u`. -/
def vu : Expr := .Variable "u"

/-- The tuple `f(x) = {x + 1, a(x)[1], b(x)[2]}` over the single index `x`,
where `a` and `b` are defined over `(u)`. -/
def two_sources_one_dim : Function :=
  ⟨"f", [vx],
    [.Add vx (.IntImm 1), .Call "a" [vx] .Halide ⟨"a", [vu]⟩ 1,
      .Call "b" [vx] .Halide ⟨"b", [vu]⟩ 2],
    [], false, "", [], false⟩

/-- The pipeline `a(u) = {u, u + 1}`, `b(u) = {u, u + 1, u + 2}` and `f` as
above. -/
def env_two_sources : Env :=
  [("a", ⟨"a", [vu], [vu, .Add vu (.IntImm 1)], [], false, "", [], false⟩),
   ("b", ⟨"b", [vu], [vu, .Add vu (.IntImm 1), .Add vu (.IntImm 2)], [], false, "", [],
      false⟩),
   ("f", two_sources_one_dim)]

/-! ## The collector loop -/

theorem collect_fold_eq (nc : NumCallers) (env : Env) (acc : List CopyPair) :
    env.foldl
      (fun acc iter =>
        if iter.2.is_inlined then acc
        else
          let copied_from := get_pointwise_copy_producer iter.2 nc
          if copied_from ≠ "" then acc ++ [⟨copied_from, iter.1⟩] else acc)
      acc = acc ++ env.filterMap (pair_of_entry nc) := by
  induction env generalizing acc with
  | nil => simp
  | cons it rest ih =>
    rw [List.foldl_cons, ih]
    by_cases hin : it.2.is_inlined = true
    · simp [List.filterMap_cons, pair_of_entry, hin]
    · by_cases hp : get_pointwise_copy_producer it.2 nc = ""
      · simp [List.filterMap_cons, pair_of_entry, hin, hp]
      · simp [List.filterMap_cons, pair_of_entry, hin, hp]

theorem collect_pairs_eq (nc : NumCallers) (env : Env) :
    collect_pairs nc env = env.filterMap (pair_of_entry nc) := by
  unfold collect_pairs
  rw [collect_fold_eq]
  simp

theorem pair_of_entry_some (nc : NumCallers) (it : String × Function) (pr : CopyPair) :
    pair_of_entry nc it = some pr ↔
      it.2.is_inlined = false ∧ get_pointwise_copy_producer it.2 nc = pr.prod ∧
        pr.prod ≠ "" ∧ pr.cons = it.1 := by
  unfold pair_of_entry
  by_cases hin : it.2.is_inlined = true
  · simp [hin]
  · by_cases hp : get_pointwise_copy_producer it.2 nc = ""
    · simp only [hin, hp]
      constructor
      · intro h
        simp at h
      · rintro ⟨_, h1, h2, _⟩
        exact absurd h1.symm h2
    · simp [hin, hp]
      constructor
      · rintro rfl
        exact ⟨rfl, hp, rfl⟩
      · rintro ⟨h1, _, h3⟩
        cases pr
        simp_all

theorem mem_collect_pairs (nc : NumCallers) (env : Env) (pr : CopyPair) :
    pr ∈ collect_pairs nc env ↔
      ∃ it ∈ env, it.2.is_inlined = false ∧ get_pointwise_copy_producer it.2 nc = pr.prod ∧
        pr.prod ≠ "" ∧ pr.cons = it.1 := by
  rw [collect_pairs_eq, List.mem_filterMap]
  constructor
  · rintro ⟨it, hit, h⟩
    exact ⟨it, hit, (pair_of_entry_some nc it pr).1 h⟩
  · rintro ⟨it, hit, h⟩
    exact ⟨it, hit, (pair_of_entry_some nc it pr).2 h⟩

/-! ## The environment as a map -/

theorem is_map_tail {it : String × Function} {rest : Env} (h : Env.is_map (it :: rest)) :
    Env.is_map rest := by
  unfold Env.is_map at h ⊢
  simp only [List.map_cons, List.pairwise_cons] at h
  exact h.2

theorem is_map_head_lt {it : String × Function} {rest : Env} (h : Env.is_map (it :: rest))
    {jt : String × Function} (hj : jt ∈ rest) : it.1 < jt.1 := by
  unfold Env.is_map at h
  simp only [List.map_cons, List.pairwise_cons] at h
  exact h.1 jt.1 (List.mem_map_of_mem Prod.fst hj)

theorem is_map_unique {env : Env} (h : env.is_map) {a b : String × Function}
    (ha : a ∈ env) (hb : b ∈ env) (hk : a.1 = b.1) : a = b := by
  induction env with
  | nil => cases ha
  | cons it rest ih =>
    rcases List.mem_cons.1 ha with rfl | ha2
    · rcases List.mem_cons.1 hb with rfl | hb2
      · rfl
      · have := is_map_head_lt h hb2
        rw [hk] at this
        exact absurd this (lt_irrefl _)
    · rcases List.mem_cons.1 hb with rfl | hb2
      · have := is_map_head_lt h ha2
        rw [hk] at this
        exact absurd this (lt_irrefl _)
      · exact ih (is_map_tail h) ha2 hb2

theorem lookup_of_mem {env : Env} (h : env.is_map) {c : String} {f : Function}
    (hm : (c, f) ∈ env) : Env.lookup env c = some f := by
  induction env with
  | nil => cases hm
  | cons it rest ih =>
    obtain ⟨k, g⟩ := it
    rcases List.mem_cons.1 hm with heq | hm2
    · cases heq
      simp [Env.lookup]
    · have hlt := is_map_head_lt h hm2
      have hne : k ≠ c := fun e => by
        simp only [e] at hlt
        exact lt_irrefl _ hlt
      simp [Env.lookup, hne, ih (is_map_tail h) hm2]

theorem mem_of_lookup {env : Env} {c : String} {f : Function}
    (hl : Env.lookup env c = some f) : (c, f) ∈ env := by
  induction env with
  | nil => simp [Env.lookup] at hl
  | cons it rest ih =>
    obtain ⟨k, g⟩ := it
    by_cases hk : k = c
    · simp [Env.lookup, hk] at hl
      simp [hk, hl]
    · simp [Env.lookup, hk] at hl
      exact List.mem_cons_of_mem _ (ih hl)

theorem cons_nodup (nc : NumCallers) {env : Env} (h : env.is_map) :
    ((collect_pairs nc env).map CopyPair.cons).Nodup := by
  rw [collect_pairs_eq]
  induction env with
  | nil => simp
  | cons it rest ih =>
    have ih2 := ih (is_map_tail h)
    rw [List.filterMap_cons]
    cases hp : pair_of_entry nc it with
    | none => simpa using ih2
    | some pr =>
      simp only [List.map_cons, List.nodup_cons]
      refine ⟨?_, ih2⟩
      intro hmem
      obtain ⟨pr2, hpr2, hc⟩ := List.mem_map.1 hmem
      obtain ⟨jt, hjt, hj⟩ := List.mem_filterMap.1 hpr2
      have h1 := ((pair_of_entry_some nc it pr).1 hp).2.2.2
      have h2 := ((pair_of_entry_some nc jt pr2).1 hj).2.2.2
      have hlt := is_map_head_lt h hjt
      rw [← h1, ← h2, hc] at hlt
      exact lt_irrefl _ hlt

/-! ## The counter map -/

theorem find_incr (m : NumCallers) (k n : String) :
    NumCallers.find (NumCallers.incr m k) n =
      if k = n then some ((NumCallers.find m n).getD 0 + 1) else NumCallers.find m n := by
  induction m with
  | nil =>
    by_cases h : k = n <;> simp [NumCallers.incr, NumCallers.find, h]
  | cons e rest ih =>
    obtain ⟨k', v⟩ := e
    by_cases h1 : k' = k
    · by_cases h2 : k = n
      · subst h1; subst h2
        simp [NumCallers.incr, NumCallers.find]
      · have h3 : ¬ k' = n := by rw [h1]; exact h2
        simp [NumCallers.incr, NumCallers.find, h1, h2]
    · by_cases h2 : k = n
      · subst h2
        simp only [if_true] at ih
        simp only [NumCallers.incr, NumCallers.find, h1, if_false, ih, if_true]
      · by_cases h3 : k' = n
        · subst h3
          simp only [NumCallers.incr, NumCallers.find, h1, h2, if_false, if_true]
        · simp only [if_neg h2] at ih
          simp only [NumCallers.incr, NumCallers.find, h1, h2, h3, if_false, ih]

theorem key_count_append (n : String) (l1 l2 : List (String × FunctionPtr Expr)) :
    key_count n (l1 ++ l2) = key_count n l1 + key_count n l2 := by
  simp [key_count, List.countP_append]

theorem find_incr_fold (n : String) (l : List (String × FunctionPtr Expr)) (m : NumCallers) :
    NumCallers.find (l.foldl (fun m2 callee => NumCallers.incr m2 callee.1) m) n =
      if key_count n l = 0 then NumCallers.find m n
      else some ((NumCallers.find m n).getD 0 + (key_count n l : Int)) := by
  induction l generalizing m with
  | nil => simp [key_count]
  | cons c rest ih =>
    rw [List.foldl_cons, ih, find_incr]
    by_cases hc : c.1 = n
    · have h1 : key_count n (c :: rest) = key_count n rest + 1 := by
        simp [key_count, List.countP_cons, hc]
      rw [h1]
      by_cases h0 : key_count n rest = 0
      · simp [hc, h0]
      · simp [hc, h0]
        ring
    · have h1 : key_count n (c :: rest) = key_count n rest := by
        simp [key_count, List.countP_cons, hc]
      rw [h1]
      simp [hc]

mutual
theorem key_count_calls_of_expr (n : String) :
    ∀ e : Expr, key_count n (calls_of_expr e) = expr_call_sites n e
  | .IntImm _ => by simp [calls_of_expr, expr_call_sites, key_count]
  | .StringImm _ => by simp [calls_of_expr, expr_call_sites, key_count]
  | .Variable _ => by simp [calls_of_expr, expr_call_sites, key_count]
  | .Add a b => by
    simp [calls_of_expr, expr_call_sites, key_count_append, key_count_calls_of_expr n a,
      key_count_calls_of_expr n b]
  | .Sub a b => by
    simp [calls_of_expr, expr_call_sites, key_count_append, key_count_calls_of_expr n a,
      key_count_calls_of_expr n b]
  | .Mul a b => by
    simp [calls_of_expr, expr_call_sites, key_count_append, key_count_calls_of_expr n a,
      key_count_calls_of_expr n b]
  | .Call name xs ct func vi => by
    rw [calls_of_expr, expr_call_sites, key_count_append, key_count_calls_of_exprs n xs]
    by_cases h1 : ct = CallType.Halide
    · by_cases h2 : name = n <;> simp [h1, h2, key_count]
    · simp [h1, key_count]
theorem key_count_calls_of_exprs (n : String) :
    ∀ es : List Expr, key_count n (calls_of_exprs es) = exprs_call_sites n es
  | [] => by simp [calls_of_exprs, exprs_call_sites, key_count]
  | e :: es => by
    rw [calls_of_exprs, exprs_call_sites, key_count_append, key_count_calls_of_expr n e,
      key_count_calls_of_exprs n es]
end

theorem key_count_calls_of_updates (n : String) (ds : List Definition) :
    key_count n (calls_of_updates ds) =
      (ds.map (fun d => exprs_call_sites n d.args + exprs_call_sites n d.values)).sum := by
  induction ds with
  | nil => simp [calls_of_updates, key_count]
  | cons d rest ih =>
    simp only [calls_of_updates, calls_of_definition, key_count_append, ih,
      key_count_calls_of_exprs, List.map_cons, List.sum_cons]

theorem key_count_find_direct_calls (n : String) (f : Function) :
    key_count n (find_direct_calls f) = function_call_sites n f := by
  simp [find_direct_calls, function_call_sites, key_count_append, key_count_calls_of_exprs,
    key_count_calls_of_updates]

theorem find_build_fold (n : String) (env : Env) (m : NumCallers) :
    NumCallers.find
        (env.foldl
          (fun m caller =>
            (find_direct_calls caller.2).foldl (fun m2 callee => NumCallers.incr m2 callee.1) m)
          m) n =
      if total_call_sites n env = 0 then NumCallers.find m n
      else some ((NumCallers.find m n).getD 0 + (total_call_sites n env : Int)) := by
  induction env generalizing m with
  | nil => simp [total_call_sites]
  | cons it rest ih =>
    rw [List.foldl_cons, ih, find_incr_fold, key_count_find_direct_calls]
    have ht : total_call_sites n (it :: rest) =
        function_call_sites n it.2 + total_call_sites n rest := by
      simp [total_call_sites]
    rw [ht]
    by_cases h1 : function_call_sites n it.2 = 0
    · by_cases h2 : total_call_sites n rest = 0
      · simp [h1, h2]
      · simp [h1, h2]
    · by_cases h2 : total_call_sites n rest = 0
      · simp [h1, h2]
      · have h3 : ¬ (function_call_sites n it.2 + total_call_sites n rest = 0) := by omega
        simp [h1, h2, h3]
        ring

theorem find_build_num_callers (n : String) (env : Env) :
    NumCallers.find (build_num_callers env) n =
      if total_call_sites n env = 0 then none else some (total_call_sites n env : Int) := by
  unfold build_num_callers
  rw [find_build_fold]
  simp [NumCallers.find]

/-! ## The plain branch of the classifier -/

theorem single_reader_of_check {nc : NumCallers} {p : String}
    (h : ¬ (match NumCallers.find nc p with
            | some n => decide (n > 1)
            | none => false) = true) : single_reader nc p := by
  intro n hn
  rw [hn] at h
  simp only [decide_eq_true_eq] at h
  omega

theorem values_loop_sound (f : Function) (nc : NumCallers) (vs : List Expr) :
    ∀ (i : Nat) (prod p : String), values_loop f nc i prod vs = p → p ≠ "" →
      (prod ≠ "" → prod = p) ∧
      (prod = "" → ∃ xs func vi, Expr.Call p xs CallType.Halide func vi ∈ vs) ∧
      (∀ k name xs func vi, vs[k]? = some (Expr.Call name xs CallType.Halide func vi) →
        slot_checked f nc i p k name func vi) := by
  induction vs with
  | nil =>
    intro i prod p h hp
    simp only [values_loop] at h
    refine ⟨fun _ => h, fun h0 => absurd (h0 ▸ h.symm) hp, ?_⟩
    intro k name xs func vi hk
    simp at hk
  | cons val rest ih =>
    intro i prod p h hp
    have shift : ∀ (q : String), values_loop f nc (i + 1) q rest = p →
        ∀ k name xs func vi,
          rest[k]? = some (Expr.Call name xs CallType.Halide func vi) →
          slot_checked f nc i p (k + 1) name func vi := by
      intro q hq k name xs func vi hk
      have := (ih (i + 1) q p hq hp).2.2 k name xs func vi hk
      unfold slot_checked at this ⊢
      have e : i + 1 + k = i + (k + 1) := by omega
      rw [e] at this
      exact this
    have other : ∀ (_ : ∀ name xs func vi, val ≠ Expr.Call name xs CallType.Halide func vi)
        (_ : values_loop f nc (i + 1) prod rest = p),
        (prod ≠ "" → prod = p) ∧
        (prod = "" → ∃ xs func vi, Expr.Call p xs CallType.Halide func vi ∈ val :: rest) ∧
        (∀ k name xs func vi,
          (val :: rest)[k]? = some (Expr.Call name xs CallType.Halide func vi) →
          slot_checked f nc i p k name func vi) := by
      intro hval h2
      obtain ⟨i1, i2, _⟩ := ih (i + 1) prod p h2 hp
      refine ⟨i1, ?_, ?_⟩
      · intro h0
        obtain ⟨xs, func, vi, hm⟩ := i2 h0
        exact ⟨xs, func, vi, List.mem_cons_of_mem _ hm⟩
      · intro k name xs func vi hk
        cases k with
        | zero =>
          simp only [List.getElem?_cons_zero, Option.some.injEq] at hk
          exact absurd hk (hval name xs func vi)
        | succ k =>
          simp only [List.getElem?_cons_succ] at hk
          exact shift prod h2 k name xs func vi hk
    have plain : ∀ (_ : ∀ name xs func vi, val ≠ Expr.Call name xs CallType.Halide func vi)
        (_ : (if prod ≠ "" then "" else values_loop f nc (i + 1) prod rest) = p),
        values_loop f nc (i + 1) prod rest = p := by
      intro _ h2
      by_cases hprod : prod = ""
      · rw [if_neg (not_not.2 hprod)] at h2
        exact h2
      · rw [if_pos hprod] at h2
        exact absurd h2.symm hp
    cases val with
    | IntImm v =>
      have hv : ∀ name xs func vi,
          Expr.IntImm v ≠ Expr.Call name xs CallType.Halide func vi := fun _ _ _ _ e => by cases e
      exact other hv (plain hv (by simpa only [values_loop] using h))
    | StringImm v =>
      have hv : ∀ name xs func vi,
          Expr.StringImm v ≠ Expr.Call name xs CallType.Halide func vi := fun _ _ _ _ e => by cases e
      exact other hv (plain hv (by simpa only [values_loop] using h))
    | Variable v =>
      have hv : ∀ name xs func vi,
          Expr.Variable v ≠ Expr.Call name xs CallType.Halide func vi := fun _ _ _ _ e => by cases e
      exact other hv (plain hv (by simpa only [values_loop] using h))
    | Add a b =>
      have hv : ∀ name xs func vi,
          Expr.Add a b ≠ Expr.Call name xs CallType.Halide func vi := fun _ _ _ _ e => by cases e
      exact other hv (plain hv (by simpa only [values_loop] using h))
    | Sub a b =>
      have hv : ∀ name xs func vi,
          Expr.Sub a b ≠ Expr.Call name xs CallType.Halide func vi := fun _ _ _ _ e => by cases e
      exact other hv (plain hv (by simpa only [values_loop] using h))
    | Mul a b =>
      have hv : ∀ name xs func vi,
          Expr.Mul a b ≠ Expr.Call name xs CallType.Halide func vi := fun _ _ _ _ e => by cases e
      exact other hv (plain hv (by simpa only [values_loop] using h))
    | Call cname cargs ct cfunc cvi =>
      simp only [values_loop] at h
      by_cases hct : ct = CallType.Halide
      · rw [if_pos hct] at h
        by_cases c1 : prod ≠ "" ∧ prod ≠ cname
        · rw [if_pos c1] at h
          exact absurd h.symm hp
        rw [if_neg c1] at h
        by_cases c2 : (match NumCallers.find nc cname with
                 | some n => decide (n > 1)
                 | none => false) = true
        · rw [if_pos c2] at h
          exact absurd h.symm hp
        rw [if_neg c2] at h
        by_cases c3 : f.dimensions ≠ cfunc.dimensions
        · rw [if_pos c3] at h
          exact absurd h.symm hp
        rw [if_neg c3] at h
        by_cases c4 : (i : Int) ≠ cvi
        · rw [if_pos c4] at h
          exact absurd h.symm hp
        rw [if_neg c4] at h
        by_cases c5 : (!args_loop f.args cfunc.args) = true
        · rw [if_pos c5] at h
          exact absurd h.symm hp
        rw [if_neg c5] at h
        obtain ⟨i1, i2, _⟩ := ih (i + 1) cname p h hp
        subst hct
        refine ⟨?_, ?_, ?_⟩
        · intro hne
          have : prod = cname := by
            by_contra hc
            exact c1 ⟨hne, hc⟩
          rw [this] at hne ⊢
          exact i1 hne
        · intro _
          by_cases hce : cname = ""
          · obtain ⟨xs, func, vi, hm⟩ := i2 hce
            exact ⟨xs, func, vi, List.mem_cons_of_mem _ hm⟩
          · rw [← i1 hce]
            exact ⟨cargs, cfunc, cvi, List.mem_cons_self _ _⟩
        · intro k name xs func vi hk
          cases k with
          | zero =>
            simp only [List.getElem?_cons_zero, Option.some.injEq, Expr.Call.injEq] at hk
            obtain ⟨rfl, _, _, rfl, rfl⟩ := hk
            refine ⟨i1, single_reader_of_check c2, not_not.1 c3, ?_, ?_⟩
            · rw [← not_not.1 c4]
              simp
            · simpa using c5
          | succ k =>
            simp only [List.getElem?_cons_succ] at hk
            exact shift cname h k name xs func vi hk
      · rw [if_neg hct] at h
        have hv : ∀ name xs func vi, Expr.Call cname cargs ct cfunc cvi ≠
            Expr.Call name xs CallType.Halide func vi := by
          intro _ _ _ _ e
          simp only [Expr.Call.injEq] at e
          exact hct e.2.2.1
        exact other hv h

/-! ## Call sites seen by the counter map -/

theorem expr_le_exprs_call_sites (n : String) {e : Expr} {es : List Expr} (h : e ∈ es) :
    expr_call_sites n e ≤ exprs_call_sites n es := by
  induction es with
  | nil => cases h
  | cons a rest ih =>
    rw [exprs_call_sites]
    rcases List.mem_cons.1 h with rfl | h2
    · omega
    · have := ih h2
      omega

theorem call_site_of_top_call {p : String} {xs : List Expr} {func : FunctionPtr Expr}
    {vi : Int} {f : Function}
    (h : Expr.Call p xs CallType.Halide func vi ∈ f.values) : 1 ≤ function_call_sites p f := by
  have h1 := expr_le_exprs_call_sites p h
  have h2 : 1 ≤ expr_call_sites p (Expr.Call p xs CallType.Halide func vi) := by
    rw [expr_call_sites]
    simp
  unfold function_call_sites
  omega

theorem function_le_total_call_sites (n : String) {env : Env} {it : String × Function}
    (h : it ∈ env) : function_call_sites n it.2 ≤ total_call_sites n env := by
  induction env with
  | nil => cases h
  | cons a rest ih =>
    have e : total_call_sites n (a :: rest) =
        function_call_sites n a.2 + total_call_sites n rest := by
      simp [total_call_sites]
    rw [e]
    rcases List.mem_cons.1 h with rfl | h2
    · omega
    · have := ih h2
      omega

theorem two_functions_le_total_call_sites (n : String) {env : Env} {a b : String × Function}
    (ha : a ∈ env) (hb : b ∈ env) (hab : a ≠ b) :
    function_call_sites n a.2 + function_call_sites n b.2 ≤ total_call_sites n env := by
  induction env with
  | nil => cases ha
  | cons h rest ih =>
    have e : total_call_sites n (h :: rest) =
        function_call_sites n h.2 + total_call_sites n rest := by
      simp [total_call_sites]
    rw [e]
    rcases List.mem_cons.1 ha with rfl | ha2
    · rcases List.mem_cons.1 hb with rfl | hb2
      · exact absurd rfl hab
      · have := function_le_total_call_sites n hb2
        omega
    · rcases List.mem_cons.1 hb with rfl | hb2
      · have := function_le_total_call_sites n ha2
        omega
      · have := ih ha2 hb2
        omega

/-- The plain branch is the one taken by a function that has no update
definition and is not a buffer copy. -/
theorem producer_plain {f : Function} {nc : NumCallers} {p : String}
    (h : get_pointwise_copy_producer f nc = p) (hp : p ≠ "") (hf : ¬ f.is_buffer_copy) :
    values_loop f nc 0 "" f.values = p := by
  unfold get_pointwise_copy_producer at h
  by_cases hu : f.has_update_definition = true
  · rw [if_pos hu] at h
    exact absurd h.symm hp
  · rw [if_neg hu] at h
    have : ¬ (f.has_extern_definition = true ∧ f.extern_function_name = "halide_buffer_copy") := hf
    rw [if_neg this] at h
    exact h

/-- A pair whose consumer took the plain branch: the entry it comes from, the
top-level call that names the producer, and the passed single-reader test. -/
theorem plain_pair_facts {env : Env} {pr : CopyPair} (hpr : pr ∈ get_pointwise_copies env)
    (hplain : ∀ it ∈ env, it.1 = pr.cons → ¬ it.2.is_buffer_copy) :
    ∃ it ∈ env, it.1 = pr.cons ∧
      values_loop it.2 (build_num_callers env) 0 "" it.2.values = pr.prod ∧
      pr.prod ≠ "" ∧ 1 ≤ function_call_sites pr.prod it.2 ∧
      single_reader (build_num_callers env) pr.prod := by
  obtain ⟨it, hit, _, hprod, hne, hcons⟩ := (mem_collect_pairs _ env pr).1 hpr
  have hv := producer_plain hprod hne (hplain it hit hcons.symm)
  obtain ⟨_, s2, s3⟩ := values_loop_sound _ _ _ 0 "" pr.prod hv hne
  obtain ⟨xs, func, vi, hm⟩ := s2 rfl
  obtain ⟨k, hk⟩ := List.getElem?_of_mem hm
  exact ⟨it, hit, hcons.symm, hv, hne, call_site_of_top_call hm, (s3 k _ xs func vi hk).2.1⟩

/-! ## C1: index-shifted copies -/

/-- C1 (the code at the failing input): for `c(x, y) = p(x + 1, y)` with
`p(x, y) = x + y`, where the call argument `x + 1` is not structurally equal
to the index argument `x` and `c` is the only caller of `p`, the classifier
returns `p` for `c` and the collector reports the pair `(p, c)`. -/
theorem c1_shifted_copy_is_reported :
    equal (Expr.Add vx (Expr.IntImm 1)) vx = false ∧
    NumCallers.find (build_num_callers scenario_C) "p" = some 1 ∧
    get_pointwise_copy_producer shifted_c (build_num_callers scenario_C) = "p" ∧
    get_pointwise_copies scenario_C = [⟨"p", "c"⟩] := by
  decide

/-! ## C2: single-reader safety -/

/-- C2 (counterexample): in `env_two_readers` the pair `(p, c)` is returned for
the extern buffer copy `c`, although the caller count of `p` is 2 (its callers
are `d` and `e`). -/
theorem c2_extern_pair_with_two_readers :
    get_pointwise_copies env_two_readers = [⟨"p", "c"⟩] ∧
    NumCallers.find (build_num_callers env_two_readers) "p" = some 2 := by
  decide

/-- C2 (amended): for every environment and every returned pair `(p, c)` whose
consumer `c` is not an extern `halide_buffer_copy` function, the caller count
of `p` over the whole environment is exactly 1. -/
theorem c2_single_reader_plain (env : Env) (pr : CopyPair)
    (hpr : pr ∈ get_pointwise_copies env)
    (hplain : ∀ it ∈ env, it.1 = pr.cons → ¬ it.2.is_buffer_copy) :
    NumCallers.find (build_num_callers env) pr.prod = some 1 := by
  obtain ⟨it, hit, _, _, _, hsite, hsr⟩ := plain_pair_facts hpr hplain
  have htot := function_le_total_call_sites pr.prod hit
  have hfind := find_build_num_callers pr.prod env
  have hpos : ¬ total_call_sites pr.prod env = 0 := by omega
  rw [if_neg hpos] at hfind
  have hle := hsr _ hfind
  rw [hfind]
  congr 1
  omega

/-- C2 (witness): the amended statement at scenario B and its pair
`(input, input_copy)`. -/
theorem c2_single_reader_plain_witness :
    (⟨"input", "input_copy"⟩ : CopyPair) ∈ get_pointwise_copies scenario_B ∧
    (∀ it ∈ scenario_B, it.1 = "input_copy" → ¬ it.2.is_buffer_copy) ∧
    NumCallers.find (build_num_callers scenario_B) "input" = some 1 :=
  ⟨by decide, by decide,
    c2_single_reader_plain scenario_B ⟨"input", "input_copy"⟩ (by decide) (by decide)⟩

/-! ## C3: whole-tuple property -/

theorem scenario_B_is_map : Env.is_map scenario_B := by
  simp [Env.is_map, scenario_B, String.lt_iff_toList_lt]
  decide

theorem args_loop_get : ∀ (fa pa : List Expr), args_loop fa pa = true →
    ∀ (j : Nat) a b, fa[j]? = some a → pa[j]? = some b → equal a b = true := by
  intro fa
  induction fa with
  | nil =>
    intro pa _ j a b ha _
    simp at ha
  | cons x xs ih =>
    intro pa h j a b ha hb
    cases pa with
    | nil => simp at hb
    | cons y ys =>
      rw [args_loop] at h
      by_cases hxy : equal x y = true
      · simp only [hxy, Bool.not_true, Bool.false_eq_true, if_false] at h
        cases j with
        | zero =>
          simp only [List.getElem?_cons_zero, Option.some.injEq] at ha hb
          rw [← ha, ← hb]
          exact hxy
        | succ j =>
          simp only [List.getElem?_cons_succ] at ha hb
          exact ih ys h j a b ha hb
      · simp [hxy] at h

/-- C3 (counterexample): in `env_partial_copies` the pair `(p, c)` is returned
although `c` has one dimension and `p` has two, and the pair `(q, t)` is
returned although slot 0 of `t` is the sum `x + y`, which holds no call at
all (the slots of `t` hold 0 and 1 internal call sites). -/
theorem c3_pairs_without_whole_tuple :
    get_pointwise_copies env_partial_copies = [⟨"p", "c"⟩, ⟨"q", "t"⟩] ∧
    (Env.lookup env_partial_copies "c").map Function.dimensions = some 1 ∧
    (Env.lookup env_partial_copies "p").map Function.dimensions = some 2 ∧
    (Env.lookup env_partial_copies "t").map
      (fun f => f.values.map (fun v => (calls_of_expr v).length)) = some [0, 1] := by
  decide

theorem values_loop_step (f : Function) (nc : NumCallers) (i : Nat) (prod p : String)
    (v : Expr) (rest : List Expr) (h : values_loop f nc i prod (v :: rest) = p) (hp : p ≠ "") :
    ∃ q, values_loop f nc (i + 1) q rest = p ∧
      (prod ≠ "" → q ≠ "" ∧ ∃ n xs ct g w, v = Expr.Call n xs ct g w) ∧
      (∀ n xs g w, v = Expr.Call n xs CallType.Halide g w → q = n) := by
  have other : ∀ (_ : ∀ n xs ct g w, v ≠ Expr.Call n xs ct g w)
      (_ : (if prod ≠ "" then "" else values_loop f nc (i + 1) prod rest) = p),
      ∃ q, values_loop f nc (i + 1) q rest = p ∧
        (prod ≠ "" → q ≠ "" ∧ ∃ n xs ct g w, v = Expr.Call n xs ct g w) ∧
        (∀ n xs g w, v = Expr.Call n xs CallType.Halide g w → q = n) := by
    intro hv h2
    by_cases hprod : prod ≠ ""
    · rw [if_pos hprod] at h2
      exact absurd h2.symm hp
    · rw [if_neg hprod] at h2
      exact ⟨prod, h2, fun hne => absurd hne hprod,
        fun n xs g w e => absurd e (hv n xs CallType.Halide g w)⟩
  cases v with
  | IntImm a => exact other (fun _ _ _ _ _ e => by cases e) (by simpa only [values_loop] using h)
  | StringImm a =>
    exact other (fun _ _ _ _ _ e => by cases e) (by simpa only [values_loop] using h)
  | Variable a => exact other (fun _ _ _ _ _ e => by cases e) (by simpa only [values_loop] using h)
  | Add a b => exact other (fun _ _ _ _ _ e => by cases e) (by simpa only [values_loop] using h)
  | Sub a b => exact other (fun _ _ _ _ _ e => by cases e) (by simpa only [values_loop] using h)
  | Mul a b => exact other (fun _ _ _ _ _ e => by cases e) (by simpa only [values_loop] using h)
  | Call cname cargs ct cfunc cvi =>
    simp only [values_loop] at h
    by_cases hct : ct = CallType.Halide
    · rw [if_pos hct] at h
      by_cases c1 : prod ≠ "" ∧ prod ≠ cname
      · rw [if_pos c1] at h
        exact absurd h.symm hp
      rw [if_neg c1] at h
      by_cases c2 : (match NumCallers.find nc cname with
               | some n => decide (n > 1)
               | none => false) = true
      · rw [if_pos c2] at h
        exact absurd h.symm hp
      rw [if_neg c2] at h
      by_cases c3 : f.dimensions ≠ cfunc.dimensions
      · rw [if_pos c3] at h
        exact absurd h.symm hp
      rw [if_neg c3] at h
      by_cases c4 : (i : Int) ≠ cvi
      · rw [if_pos c4] at h
        exact absurd h.symm hp
      rw [if_neg c4] at h
      by_cases c5 : (!args_loop f.args cfunc.args) = true
      · rw [if_pos c5] at h
        exact absurd h.symm hp
      rw [if_neg c5] at h
      refine ⟨cname, h, ?_, ?_⟩
      · intro hne
        have hpc : prod = cname := by
          by_contra hc
          exact c1 ⟨hne, hc⟩
        exact ⟨hpc ▸ hne, cname, cargs, ct, cfunc, cvi, rfl⟩
      · intro n xs g w e
        simp only [Expr.Call.injEq] at e
        exact e.1
    · rw [if_neg hct] at h
      refine ⟨prod, h, fun hne => ⟨hne, cname, cargs, ct, cfunc, cvi, rfl⟩, ?_⟩
      intro n xs g w e
      simp only [Expr.Call.injEq] at e
      exact absurd e.2.2.1 hct

/-- Once a producer is set, a non-empty result forces every remaining slot to
be a `Call` node. -/
theorem values_loop_calls_only (f : Function) (nc : NumCallers) (vs : List Expr) :
    ∀ (i : Nat) (prod p : String), values_loop f nc i prod vs = p → p ≠ "" → prod ≠ "" →
      ∀ v ∈ vs, ∃ n xs ct g w, v = Expr.Call n xs ct g w := by
  induction vs with
  | nil => intro i prod p _ _ _ v hv; cases hv
  | cons v0 rest ih =>
    intro i prod p h hp hprod v hv
    obtain ⟨q, hq, h1, _⟩ := values_loop_step f nc i prod p v0 rest h hp
    obtain ⟨hqne, hcall⟩ := h1 hprod
    rcases List.mem_cons.1 hv with rfl | hv2
    · exact hcall
    · exact ih (i + 1) q p hq hp hqne v hv2

/-- In a function found to be a copy, every slot that follows an internal
call with a non-empty name is a `Call` node. -/
theorem values_loop_calls_after (f : Function) (nc : NumCallers) (vs : List Expr) :
    ∀ (i : Nat) (prod p : String), values_loop f nc i prod vs = p → p ≠ "" →
      ∀ (j k : Nat) name xs func vi v, j < k →
        vs[j]? = some (Expr.Call name xs CallType.Halide func vi) → name ≠ "" →
        vs[k]? = some v → ∃ n ys ct g w, v = Expr.Call n ys ct g w := by
  induction vs with
  | nil =>
    intro i prod p _ _ j k name xs func vi v _ hj
    simp at hj
  | cons v0 rest ih =>
    intro i prod p h hp j k name xs func vi v hjk hj hname hk
    obtain ⟨q, hq, _, h2⟩ := values_loop_step f nc i prod p v0 rest h hp
    cases k with
    | zero => omega
    | succ k =>
      simp only [List.getElem?_cons_succ] at hk
      cases j with
      | zero =>
        simp only [List.getElem?_cons_zero, Option.some.injEq] at hj
        have hqn : q = name := h2 name xs func vi hj
        exact values_loop_calls_only f nc rest (i + 1) q p hq hp (hqn ▸ hname) v
          (List.getElem?_mem hk)
      | succ j =>
        simp only [List.getElem?_cons_succ] at hj
        exact ih (i + 1) q p hq hp j k name xs func vi v (by omega) hj hname hk

theorem env_three_slots_is_map : Env.is_map env_three_slots := by
  simp [Env.is_map, env_three_slots, String.lt_iff_toList_lt]
  decide

/-- C3 (amended): for every environment and every returned pair `(p, c)` whose
consumer `c` is not an extern `halide_buffer_copy` function, some value slot
of `c` is an internal call to `p`; every value slot `i` of `c` that is an
internal call names `p` (when the name it carries is non-empty), has
`tuple_value_index` equal to `i`, points to a callee with as many
dimensions as `c`, and `c`'s index arguments are structurally equal, position
by position, to the index arguments of that callee; and every slot that
follows an internal call with a non-empty name is a `Call` node, so that a
slot that is not a call can only stand before the first such call. -/
theorem c3_whole_tuple_plain (env : Env) (hmap : env.is_map) (pr : CopyPair)
    (hpr : pr ∈ get_pointwise_copies env) (fc : Function) (hfc : (pr.cons, fc) ∈ env)
    (hplain : ¬ fc.is_buffer_copy) :
    (∃ xs func vi, Expr.Call pr.prod xs CallType.Halide func vi ∈ fc.values) ∧
    (∀ (i : Nat) name xs func vi,
      fc.values[i]? = some (Expr.Call name xs CallType.Halide func vi) →
        (name ≠ "" → name = pr.prod) ∧ func.dimensions = fc.dimensions ∧ vi = (i : Int) ∧
          ∀ (j : Nat) a b, fc.args[j]? = some a → func.args[j]? = some b →
            equal a b = true) ∧
    (∀ (i k : Nat) name xs func vi v, i < k →
      fc.values[i]? = some (Expr.Call name xs CallType.Halide func vi) → name ≠ "" →
      fc.values[k]? = some v → ∃ n ys ct g w, v = Expr.Call n ys ct g w) := by
  obtain ⟨it, hit, _, hprod, hne, hcons⟩ := (mem_collect_pairs _ env pr).1 hpr
  have hit2 : it = (pr.cons, fc) := is_map_unique hmap hit hfc hcons.symm
  subst hit2
  have hv := producer_plain hprod hne hplain
  obtain ⟨_, s2, s3⟩ := values_loop_sound _ _ _ 0 "" pr.prod hv hne
  refine ⟨s2 rfl, ?_, values_loop_calls_after _ _ _ 0 "" pr.prod hv hne⟩
  intro i name xs func vi hslot
  obtain ⟨t1, _, t3, t4, t5⟩ := s3 i name xs func vi hslot
  refine ⟨t1, ?_, ?_, args_loop_get _ _ t5⟩
  · exact t3.symm
  · simpa using t4

/-- C3 (witness): the amended statement at `env_three_slots`, for the pair
`(q, t)` whose consumer `t(x, y) = {x + y, q(x, y)[1], sin_f32(x)}` has a slot
before and a slot after its internal call. -/
theorem c3_whole_tuple_plain_witness :
    Env.is_map env_three_slots ∧
    (⟨"q", "t"⟩ : CopyPair) ∈ get_pointwise_copies env_three_slots ∧
    ¬ three_slot_consumer.is_buffer_copy ∧
    ((∃ xs func vi, Expr.Call "q" xs CallType.Halide func vi ∈ three_slot_consumer.values) ∧
      (∀ (i : Nat) name xs func vi,
        three_slot_consumer.values[i]? = some (Expr.Call name xs CallType.Halide func vi) →
          (name ≠ "" → name = "q") ∧ func.dimensions = three_slot_consumer.dimensions ∧
            vi = (i : Int) ∧
            ∀ (j : Nat) a b, three_slot_consumer.args[j]? = some a →
              func.args[j]? = some b → equal a b = true) ∧
      (∀ (i k : Nat) name xs func vi v, i < k →
        three_slot_consumer.values[i]? = some (Expr.Call name xs CallType.Halide func vi) →
        name ≠ "" → three_slot_consumer.values[k]? = some v →
        ∃ n ys ct g w, v = Expr.Call n ys ct g w)) :=
  ⟨env_three_slots_is_map, by decide, by decide,
    c3_whole_tuple_plain env_three_slots env_three_slots_is_map ⟨"q", "t"⟩ (by decide)
      three_slot_consumer (List.mem_cons_of_mem _ (List.mem_cons_self _ _)) (by decide)⟩

/-! ## C4: the collector is exact -/

/-- C4: for every environment (a map: strictly ascending keys), the pair
`(p, c)` is returned if and only if `c` is a key whose function is not inlined
and for which the classifier, run with the caller counts of the environment,
returns the non-empty name `p`; and no consumer occurs in two returned pairs. -/
theorem c4_collector_exact (env : Env) (hmap : env.is_map) :
    (∀ p c, (⟨p, c⟩ : CopyPair) ∈ get_pointwise_copies env ↔
      ∃ f, Env.lookup env c = some f ∧ f.is_inlined = false ∧
        get_pointwise_copy_producer f (build_num_callers env) = p ∧ p ≠ "") ∧
    ((get_pointwise_copies env).map CopyPair.cons).Nodup := by
  refine ⟨?_, cons_nodup _ hmap⟩
  intro p c
  unfold get_pointwise_copies
  rw [mem_collect_pairs]
  constructor
  · rintro ⟨it, hit, h1, h2, h3, h4⟩
    obtain ⟨k, f⟩ := it
    simp only at h1 h2 h3 h4
    subst h4
    exact ⟨f, lookup_of_mem hmap hit, h1, h2, h3⟩
  · rintro ⟨f, hl, h1, h2, h3⟩
    exact ⟨(c, f), mem_of_lookup hl, h1, h2, h3, rfl⟩

/-- C4 (witness): the statement at scenario B. -/
theorem c4_collector_exact_witness :
    Env.is_map scenario_B ∧
    ((∀ p c, (⟨p, c⟩ : CopyPair) ∈ get_pointwise_copies scenario_B ↔
      ∃ f, Env.lookup scenario_B c = some f ∧ f.is_inlined = false ∧
        get_pointwise_copy_producer f (build_num_callers scenario_B) = p ∧ p ≠ "") ∧
    ((get_pointwise_copies scenario_B).map CopyPair.cons).Nodup) :=
  ⟨scenario_B_is_map, c4_collector_exact scenario_B scenario_B_is_map⟩

/-! ## C5, C6: the two scenarios -/

/-- C5 (counterexample): on scenario A the pair `(g, h)` is not returned. -/
theorem c5_scenario_A_has_no_g_h :
    (⟨"g", "h"⟩ : CopyPair) ∉ get_pointwise_copies scenario_A := by
  decide

/-- C5 (amended): on scenario A the collector returns no pair: `g` has caller
count 2 (it is called by `h` and by `tile`), so `h` fails the single-reader
test although it would be a copy of `g` were `g` read by `h` alone, and
`tile` is rejected whatever the counts because its two slots call two
different producers; `f` and `g` are arithmetic. -/
theorem c5_scenario_A_returns_nothing :
    get_pointwise_copies scenario_A = [] ∧
    NumCallers.find (build_num_callers scenario_A) "g" = some 2 ∧
    get_pointwise_copy_producer (plain_fn "h" [call_xy "g" [vx, vy] 0])
      (build_num_callers scenario_A) = "" ∧
    get_pointwise_copy_producer (plain_fn "h" [call_xy "g" [vx, vy] 0]) [("g", 1)] = "g" ∧
    get_pointwise_copy_producer
      (plain_fn "tile" [call_xy "f" [vx, vy] 0, call_xy "g" [vx, vy] 0]) [] = "" := by
  decide

/-- C6: on scenario B the collector returns exactly the pairs
`(input, input_copy)` and `(work, output)`; the classifier returns the empty
name for `input` and for `work`, so neither is the consumer of a pair. -/
theorem c6_scenario_B_pairs :
    get_pointwise_copies scenario_B = [⟨"input", "input_copy"⟩, ⟨"work", "output"⟩] ∧
    get_pointwise_copy_producer (plain_fn "input" [.Add vx vy])
      (build_num_callers scenario_B) = "" ∧
    get_pointwise_copy_producer
      (plain_fn "work" [.Mul (call_xy "input_copy" [vx, vy] 0) (.IntImm 2)])
      (build_num_callers scenario_B) = "" := by
  decide

/-! ## C7: what the caller counts count -/

/-- C7: for every environment and every name `n`, the caller count of `n` is
the total number of internal call sites referencing `n` over all functions of
the environment, and `n` is absent from the map when there is no such site;
a two-slot tuple copy `{n[0], n[1]}` contributes 2. -/
theorem c7_caller_counts_count_call_sites (env : Env) (n : String) :
    NumCallers.find (build_num_callers env) n =
      (if total_call_sites n env = 0 then none else some (total_call_sites n env : Int)) ∧
    function_call_sites "n" tuple_copy = 2 ∧
    NumCallers.find (build_num_callers [("t", tuple_copy)]) "n" = some 2 :=
  ⟨find_build_num_callers n env, by decide, by decide⟩

/-! ## The extern buffer-copy branch -/

theorem extern_loop_eq_names_loop (args : List ExternFuncArgument) :
    ∀ prod, extern_loop prod args = names_loop prod (func_ref_names args) := by
  induction args with
  | nil => intro prod; rfl
  | cons a rest ih =>
    intro prod
    cases a with
    | FuncArg g => simp only [extern_loop, func_ref_names, names_loop, ih]
    | UndefinedArg => simp only [extern_loop, func_ref_names, ih]
    | BufferArg n => simp only [extern_loop, func_ref_names, ih]
    | ExprArg e => simp only [extern_loop, func_ref_names, ih]
    | ImageParamArg n => simp only [extern_loop, func_ref_names, ih]

theorem producer_buffer_copy {f : Function} (nc : NumCallers)
    (hupd : f.has_update_definition = false) (hext : f.is_buffer_copy) :
    get_pointwise_copy_producer f nc = names_loop "" (func_ref_names f.extern_arguments) := by
  unfold get_pointwise_copy_producer
  have h2 : f.has_extern_definition = true ∧ f.extern_function_name = "halide_buffer_copy" :=
    hext
  rw [hupd, if_neg (by simp), if_pos h2, extern_loop_eq_names_loop]

theorem names_loop_same (p : String) (ns : List String) :
    ∀ prod, (prod = "" ∨ prod = p) → (∀ n ∈ ns, n = p) →
      names_loop prod ns = if ns = [] then prod else p := by
  induction ns with
  | nil => intro prod _ _; simp [names_loop]
  | cons n rest ih =>
    intro prod hprod hall
    have hn : n = p := hall n (List.mem_cons_self _ _)
    subst hn
    have hrest : ∀ m ∈ rest, m = n := fun m hm => hall m (List.mem_cons_of_mem _ hm)
    have hno : ¬ (prod ≠ "" ∧ prod ≠ n) := by
      rintro ⟨h1, h2⟩
      rcases hprod with h | h
      · exact h1 h
      · exact h2 h
    rw [names_loop, if_neg hno, ih n (Or.inr rfl) hrest]
    by_cases hr : rest = [] <;> simp [hr]

theorem names_loop_accepts (ns : List String) :
    ∀ prod, names_loop prod ns ≠ "" →
      (prod ≠ "" → prod = names_loop prod ns) ∧
      ∀ n ∈ ns, n ≠ "" → n = names_loop prod ns := by
  induction ns with
  | nil =>
    intro prod _
    exact ⟨fun _ => rfl, fun n hn => by cases hn⟩
  | cons n rest ih =>
    intro prod h
    rw [names_loop] at h ⊢
    by_cases hrej : prod ≠ "" ∧ prod ≠ n
    · rw [if_pos hrej] at h
      exact absurd rfl h
    · rw [if_neg hrej] at h ⊢
      obtain ⟨i1, i2⟩ := ih n h
      refine ⟨?_, ?_⟩
      · intro hp
        have hpn : prod = n := by
          by_contra hc
          exact hrej ⟨hp, hc⟩
        rw [hpn] at hp ⊢
        exact i1 hp
      · intro m hm hne
        rcases List.mem_cons.1 hm with rfl | hm2
        · exact i1 hne
        · exact i2 m hm2 hne

/-! ## C9: uniqueness of consumers and producers -/

/-- C9 (counterexample): in `env_two_copies` the name `p` is the producer of
two returned pairs. -/
theorem c9_producer_of_two_extern_copies :
    get_pointwise_copies env_two_copies = [⟨"p", "c1"⟩, ⟨"p", "c2"⟩] := by
  decide

/-- C9 (amended): for every environment, no name is the consumer of more than
one returned pair, and no name is the producer of more than one returned pair
whose consumer is not an extern `halide_buffer_copy` function. -/
theorem c9_unique_consumers_and_plain_producers (env : Env) (hmap : env.is_map) :
    ((get_pointwise_copies env).map CopyPair.cons).Nodup ∧
    ∀ a ∈ get_pointwise_copies env, ∀ b ∈ get_pointwise_copies env, a.prod = b.prod →
      (∀ it ∈ env, it.1 = a.cons → ¬ it.2.is_buffer_copy) →
      (∀ it ∈ env, it.1 = b.cons → ¬ it.2.is_buffer_copy) → a = b := by
  refine ⟨cons_nodup _ hmap, ?_⟩
  intro a ha b hb hprod hpa hpb
  obtain ⟨ita, hita, hca, _, _, hsa, hsr⟩ := plain_pair_facts ha hpa
  obtain ⟨itb, hitb, hcb, _, _, hsb, _⟩ := plain_pair_facts hb hpb
  by_cases hab : ita = itb
  · have hc : a.cons = b.cons := by rw [← hca, ← hcb, hab]
    cases a
    cases b
    simp only at hprod hc
    rw [hprod, hc]
  · exfalso
    rw [← hprod] at hsb
    have htot := two_functions_le_total_call_sites a.prod hita hitb hab
    have hfind := find_build_num_callers a.prod env
    have hpos : ¬ total_call_sites a.prod env = 0 := by omega
    rw [if_neg hpos] at hfind
    have hle := hsr _ hfind
    omega

/-- C9 (witness): the amended statement at scenario B. -/
theorem c9_unique_consumers_and_plain_producers_witness :
    Env.is_map scenario_B ∧
    (((get_pointwise_copies scenario_B).map CopyPair.cons).Nodup ∧
    ∀ a ∈ get_pointwise_copies scenario_B, ∀ b ∈ get_pointwise_copies scenario_B,
      a.prod = b.prod →
      (∀ it ∈ scenario_B, it.1 = a.cons → ¬ it.2.is_buffer_copy) →
      (∀ it ∈ scenario_B, it.1 = b.cons → ¬ it.2.is_buffer_copy) → a = b) :=
  ⟨scenario_B_is_map, c9_unique_consumers_and_plain_producers scenario_B scenario_B_is_map⟩

/-! ## C10: functions with an update definition -/

theorem env_with_update_is_map : Env.is_map env_with_update := by
  simp [Env.is_map, env_with_update, String.lt_iff_toList_lt]
  decide

/-- C10: for every function `f` that has an update definition and every
caller-count map the classifier returns the empty name; hence in every
environment that holds `f` under a key `c`, no returned pair has consumer
`c`. -/
theorem c10_update_exclusion (f : Function) (nc : NumCallers)
    (hupd : f.has_update_definition = true) :
    get_pointwise_copy_producer f nc = "" ∧
    ∀ (env : Env), env.is_map → ∀ c, (c, f) ∈ env →
      ∀ p, (⟨p, c⟩ : CopyPair) ∉ get_pointwise_copies env := by
  have hempty : ∀ nc2, get_pointwise_copy_producer f nc2 = "" := by
    intro nc2
    unfold get_pointwise_copy_producer
    rw [if_pos hupd]
  refine ⟨hempty nc, ?_⟩
  intro env hmap c hc p hmem
  obtain ⟨it, hit, _, hprod, hne, hcons⟩ := (mem_collect_pairs _ env _).1 hmem
  have hit2 : it = (c, f) := is_map_unique hmap hit hc hcons.symm
  subst hit2
  simp only at hprod hne
  rw [hempty] at hprod
  exact hne hprod.symm

/-- C10 (witness): `r(x, y) = p(x, y)` with an update stage is not classified
as a copy and is the consumer of no pair of `env_with_update`. -/
theorem c10_update_exclusion_witness :
    copy_with_update.has_update_definition = true ∧
    get_pointwise_copy_producer copy_with_update [] = "" ∧
    Env.is_map env_with_update ∧
    ∀ p, (⟨p, "r"⟩ : CopyPair) ∉ get_pointwise_copies env_with_update :=
  ⟨by decide, (c10_update_exclusion copy_with_update [] (by decide)).1,
    env_with_update_is_map,
    (c10_update_exclusion copy_with_update [] (by decide)).2 env_with_update
      env_with_update_is_map "r" (List.mem_cons_of_mem _ (List.mem_cons_self _ _))⟩

/-! ## C11: inlined functions -/

theorem env_inlined_is_map : Env.is_map env_inlined := by
  simp [Env.is_map, env_inlined, String.lt_iff_toList_lt]
  decide

/-- C11: in every environment, a function whose `is_inlined` signal is true
is the consumer of no returned pair. -/
theorem c11_inlined_exclusion (env : Env) (hmap : env.is_map) (c : String) (f : Function)
    (hf : (c, f) ∈ env) (hin : f.is_inlined = true) :
    ∀ p, (⟨p, c⟩ : CopyPair) ∉ get_pointwise_copies env := by
  intro p hmem
  obtain ⟨it, hit, hno, _, _, hcons⟩ := (mem_collect_pairs _ env _).1 hmem
  have hit2 : it = (c, f) := is_map_unique hmap hit hf hcons.symm
  subst hit2
  simp only at hno
  rw [hin] at hno
  cases hno

/-- C11 (witness): the inlined `b(x, y) = a(x, y)` is the consumer of no pair
of `env_inlined`, although without the inline schedule it is a copy of `a`. -/
theorem c11_inlined_exclusion_witness :
    Env.is_map env_inlined ∧ inlined_copy.is_inlined = true ∧
    get_pointwise_copy_producer inlined_copy (build_num_callers env_inlined) = "a" ∧
    ∀ p, (⟨p, "b"⟩ : CopyPair) ∉ get_pointwise_copies env_inlined :=
  ⟨env_inlined_is_map, by decide, by decide,
    c11_inlined_exclusion env_inlined env_inlined_is_map "b" inlined_copy
      (List.mem_cons_of_mem _ (List.mem_cons_self _ _)) (by decide)⟩

/-! ## Rejections of the plain branch -/

theorem not_buffer_copy_of_plain {f : Function} (h : f.has_extern_definition = false) :
    ¬ f.is_buffer_copy := by
  rintro ⟨h1, _⟩
  rw [h] at h1
  cases h1

/-- The classifier on a function that has no update definition and is not a
buffer copy is the loop over the values. -/
theorem producer_eq_values_loop {f : Function} (nc : NumCallers)
    (hupd : f.has_update_definition = false) (hf : ¬ f.is_buffer_copy) :
    get_pointwise_copy_producer f nc = values_loop f nc 0 "" f.values := by
  unfold get_pointwise_copy_producer
  have h2 : ¬ (f.has_extern_definition = true ∧ f.extern_function_name = "halide_buffer_copy") :=
    hf
  rw [hupd, if_neg (by simp), if_neg h2]

theorem values_loop_no_call (f : Function) (nc : NumCallers) (vs : List Expr)
    (h : ∀ v ∈ vs, ∀ name xs func vi, v ≠ Expr.Call name xs CallType.Halide func vi) :
    ∀ i, values_loop f nc i "" vs = "" := by
  induction vs with
  | nil => intro i; rfl
  | cons v rest ih =>
    intro i
    have hrest := ih (fun w hw => h w (List.mem_cons_of_mem _ hw)) (i + 1)
    have hv := h v (List.mem_cons_self _ _)
    cases v with
    | IntImm a => simp only [values_loop, hrest, ne_eq, not_true_eq_false, if_false]
    | StringImm a => simp only [values_loop, hrest, ne_eq, not_true_eq_false, if_false]
    | Variable a => simp only [values_loop, hrest, ne_eq, not_true_eq_false, if_false]
    | Add a b => simp only [values_loop, hrest, ne_eq, not_true_eq_false, if_false]
    | Sub a b => simp only [values_loop, hrest, ne_eq, not_true_eq_false, if_false]
    | Mul a b => simp only [values_loop, hrest, ne_eq, not_true_eq_false, if_false]
    | Call name xs ct func vi =>
      have hct : ¬ ct = CallType.Halide := fun e => hv name xs func vi (by rw [e])
      simp only [values_loop, if_neg hct, hrest]

/-- The value of the classifier on a function with no extern definition two
of whose value slots are internal calls to callees with different non-empty
names is the empty name. -/
theorem two_sources_value (f : Function) (nc : NumCallers)
    (hext : f.has_extern_definition = false)
    (i k : Nat) (a b : String) (xs ys : List Expr) (fa fb : FunctionPtr Expr) (va vb : Int)
    (hi : f.values[i]? = some (Expr.Call a xs CallType.Halide fa va))
    (hk : f.values[k]? = some (Expr.Call b ys CallType.Halide fb vb))
    (ha : a ≠ "") (hb : b ≠ "") (hab : a ≠ b) :
    get_pointwise_copy_producer f nc = "" := by
  by_contra hne
  have hv := producer_plain rfl hne (not_buffer_copy_of_plain hext)
  obtain ⟨_, _, s3⟩ := values_loop_sound _ _ _ 0 "" _ hv hne
  exact hab (((s3 i a xs fa va hi).1 ha).trans ((s3 k b ys fb vb hk).1 hb).symm)

/-- C18: a function with no update and no extern definition none of whose
value slots is itself an internal call is not a copy, whatever the caller
counts. -/
theorem c18_genuine_computation (f : Function) (nc : NumCallers)
    (hupd : f.has_update_definition = false) (hext : f.has_extern_definition = false)
    (hvals : ∀ v ∈ f.values, ∀ name xs func vi,
      v ≠ Expr.Call name xs CallType.Halide func vi) :
    get_pointwise_copy_producer f nc = "" := by
  rw [producer_eq_values_loop nc hupd (not_buffer_copy_of_plain hext)]
  exact values_loop_no_call f nc f.values hvals 0

/-- C18 (witness): `work(x, y) = input_copy(x, y) * 2`, whose call is nested
under a multiplication, is not a copy. -/
theorem c18_genuine_computation_witness :
    (∀ v ∈ (plain_fn "work" [.Mul (call_xy "input_copy" [vx, vy] 0) (.IntImm 2)]).values,
      ∀ name xs func vi, v ≠ Expr.Call name xs CallType.Halide func vi) ∧
    get_pointwise_copy_producer
      (plain_fn "work" [.Mul (call_xy "input_copy" [vx, vy] 0) (.IntImm 2)])
      [("input_copy", 1)] = "" :=
  have h : ∀ v ∈ (plain_fn "work" [.Mul (call_xy "input_copy" [vx, vy] 0) (.IntImm 2)]).values,
      ∀ name xs func vi, v ≠ Expr.Call name xs CallType.Halide func vi := by
    intro v hv name xs func vi e
    simp only [plain_fn, List.mem_singleton] at hv
    rw [hv] at e
    cases e
  ⟨h, c18_genuine_computation
    (plain_fn "work" [.Mul (call_xy "input_copy" [vx, vy] 0) (.IntImm 2)])
    [("input_copy", 1)] rfl rfl h⟩

/-! ## C20: the order of the result -/

theorem cons_sublist_keys (nc : NumCallers) (env : Env) :
    ((collect_pairs nc env).map CopyPair.cons).Sublist (env.map Prod.fst) := by
  rw [collect_pairs_eq]
  induction env with
  | nil => simp
  | cons it rest ih =>
    rw [List.filterMap_cons]
    cases hp : pair_of_entry nc it with
    | none =>
      simp only [List.map_cons]
      exact List.Sublist.cons _ ih
    | some pr =>
      have h1 := ((pair_of_entry_some nc it pr).1 hp).2.2.2
      simp only [List.map_cons, h1]
      exact List.Sublist.cons₂ _ ih

/-- C20: for every environment (a map: strictly ascending keys) the consumers
of the returned pairs, in the order returned, form a subsequence of the key
sequence of the environment and are strictly ascending; and two environments
that hold the same entries return the same list. -/
theorem c20_result_order (env : Env) (hmap : env.is_map) :
    ((get_pointwise_copies env).map CopyPair.cons).Sublist (env.map Prod.fst) ∧
    ((get_pointwise_copies env).map CopyPair.cons).Pairwise (fun a b => a < b) ∧
    ∀ env2 : Env, env2.is_map → env2.Perm env →
      get_pointwise_copies env2 = get_pointwise_copies env := by
  have hsub := cons_sublist_keys (build_num_callers env) env
  refine ⟨hsub, List.Pairwise.sublist hsub hmap, ?_⟩
  intro env2 hmap2 hperm
  have hanti : IsAntisymm (String × Function) (fun a b => a.1 < b.1) :=
    ⟨fun a b h1 h2 => absurd (lt_trans h1 h2) (lt_irrefl _)⟩
  have : env2 = env :=
    List.eq_of_perm_of_sorted hperm (List.pairwise_map.1 hmap2) (List.pairwise_map.1 hmap)
  rw [this]

/-- C20 (witness): the statement at scenario B. -/
theorem c20_result_order_witness :
    Env.is_map scenario_B ∧
    (((get_pointwise_copies scenario_B).map CopyPair.cons).Sublist (scenario_B.map Prod.fst) ∧
    ((get_pointwise_copies scenario_B).map CopyPair.cons).Pairwise (fun a b => a < b) ∧
    ∀ env2 : Env, env2.is_map → env2.Perm scenario_B →
      get_pointwise_copies env2 = get_pointwise_copies scenario_B) :=
  ⟨scenario_B_is_map, c20_result_order scenario_B scenario_B_is_map⟩

/-! ## C15: the plain branch on functions whose slots are all calls -/

theorem args_loop_of_get : ∀ (fa pa : List Expr),
    (∀ (j : Nat) a b, fa[j]? = some a → pa[j]? = some b → equal a b = true) →
    args_loop fa pa = true := by
  intro fa
  induction fa with
  | nil => intro pa _; rfl
  | cons x xs ih =>
    intro pa h
    cases pa with
    | nil => rfl
    | cons y ys =>
      have h0 : equal x y = true := h 0 x y (by simp) (by simp)
      have hrest := ih ys (fun j a b ha hb => h (j + 1) a b (by simpa using ha) (by simpa using hb))
      simp only [args_loop, h0, Bool.not_true, Bool.false_eq_true, if_false, hrest]

theorem single_reader_check {nc : NumCallers} {p : String} (h : single_reader nc p) :
    ¬ (match NumCallers.find nc p with
        | some n => decide (n > 1)
        | none => false) = true := by
  cases hf : NumCallers.find nc p with
  | none => simp
  | some n =>
    have := h n hf
    simp only [decide_eq_true_eq]
    omega

theorem values_loop_complete (f : Function) (nc : NumCallers) (p : String) (vs : List Expr) :
    ∀ (i : Nat) (prod : String), (prod = "" ∨ prod = p) →
      (∀ (k : Nat) v, vs[k]? = some v → slot_copies f nc p (i + k) v) →
      values_loop f nc i prod vs = if vs.isEmpty then prod else p := by
  induction vs with
  | nil => intro i prod _ _; rfl
  | cons v rest ih =>
    intro i prod hprod hall
    obtain ⟨xs, func, vi, hv, hsr, hdim, hvi, hargs⟩ := hall 0 v (by simp)
    have hrest := ih (i + 1) p (Or.inr rfl) (fun k w hw => by
      have := hall (k + 1) w (by simpa using hw)
      have e : i + (k + 1) = i + 1 + k := by omega
      rw [e] at this
      exact this)
    have c1 : ¬ (prod ≠ "" ∧ prod ≠ p) := by
      rintro ⟨h1, h2⟩
      rcases hprod with h | h
      · exact h1 h
      · exact h2 h
    have c3 : ¬ f.dimensions ≠ func.dimensions := not_not.2 hdim.symm
    have c4 : ¬ (i : Int) ≠ vi := by
      rw [hvi]
      simp
    have c5 : ¬ (!args_loop f.args func.args) = true := by
      rw [args_loop_of_get _ _ hargs]
      simp
    subst hv
    simp only [values_loop, if_true, if_neg c1, if_neg (single_reader_check hsr), if_neg c3,
      if_neg c4, if_neg c5, hrest]
    cases rest <;> simp

/-- C15: for every function with no update and no extern definition whose
value slots are all internal calls to functions with non-empty names, and
every caller-count map, the classifier returns the non-empty name `p` if and
only if the function has at least one value and every slot `i` is a copy of
slot `i` of `p` (callee `p`, `p` absent from the counts or counted at most
once, equal dimensions, value index `i`, equal index arguments); when no
name qualifies it returns the empty name. -/
theorem c15_all_call_characterisation (f : Function) (nc : NumCallers)
    (hupd : f.has_update_definition = false) (hext : f.has_extern_definition = false)
    (hcalls : ∀ v ∈ f.values, ∃ name xs func vi,
      v = Expr.Call name xs CallType.Halide func vi ∧ name ≠ "") :
    (∀ p, p ≠ "" →
      (get_pointwise_copy_producer f nc = p ↔
        f.values ≠ [] ∧ ∀ (i : Nat) v, f.values[i]? = some v → slot_copies f nc p i v)) ∧
    ((¬ ∃ p, p ≠ "" ∧ f.values ≠ [] ∧
        ∀ (i : Nat) v, f.values[i]? = some v → slot_copies f nc p i v) →
      get_pointwise_copy_producer f nc = "") := by
  have hplain := not_buffer_copy_of_plain hext
  have hfwd : ∀ p, p ≠ "" → get_pointwise_copy_producer f nc = p →
      f.values ≠ [] ∧ ∀ (i : Nat) v, f.values[i]? = some v → slot_copies f nc p i v := by
    intro p hp h
    have hv := producer_plain h hp hplain
    obtain ⟨_, s2, s3⟩ := values_loop_sound _ _ _ 0 "" p hv hp
    refine ⟨?_, ?_⟩
    · obtain ⟨xs, func, vi, hm⟩ := s2 rfl
      exact List.ne_nil_of_mem hm
    · intro i v hi
      obtain ⟨name, xs, func, vi, rfl, hname⟩ := hcalls v (List.getElem?_mem hi)
      obtain ⟨t1, t2, t3, t4, t5⟩ := s3 i name xs func vi hi
      have hnp : name = p := t1 hname
      subst hnp
      refine ⟨xs, func, vi, rfl, t2, t3.symm, ?_, args_loop_get _ _ t5⟩
      simpa using t4
  refine ⟨?_, ?_⟩
  · intro p hp
    constructor
    · exact hfwd p hp
    · rintro ⟨hne, hall⟩
      rw [producer_eq_values_loop nc hupd hplain,
        values_loop_complete f nc p f.values 0 "" (Or.inl rfl) (fun k v hk => by
          have := hall k v hk
          simpa using this)]
      cases hvs : f.values with
      | nil => exact absurd hvs hne
      | cons _ _ => simp
  · intro hnone
    by_contra hres
    obtain ⟨h1, h2⟩ := hfwd _ hres rfl
    exact hnone ⟨_, hres, h1, h2⟩

/-! ## The diagnostic of the classifier -/

theorem extern_call_args_error (r : Renderer) (args : List ExternFuncArgument)
    (h : ∃ a ∈ args, a.is_valid = false) :
    extern_call_args r args = .error "Bad ExternFuncArgument type\n" := by
  induction args with
  | nil =>
    obtain ⟨a, ha, _⟩ := h
    cases ha
  | cons b rest ih =>
    cases b with
    | UndefinedArg => rfl
    | FuncArg g =>
      have hr : ∃ a ∈ rest, a.is_valid = false := by
        obtain ⟨a, ha, hv⟩ := h
        rcases List.mem_cons.1 ha with rfl | ha2
        · cases hv
        · exact ⟨a, ha2, hv⟩
      simp only [extern_call_args, ih hr]
      rfl
    | BufferArg n =>
      have hr : ∃ a ∈ rest, a.is_valid = false := by
        obtain ⟨a, ha, hv⟩ := h
        rcases List.mem_cons.1 ha with rfl | ha2
        · cases hv
        · exact ⟨a, ha2, hv⟩
      simp only [extern_call_args, ih hr]
      rfl
    | ExprArg e =>
      have hr : ∃ a ∈ rest, a.is_valid = false := by
        obtain ⟨a, ha, hv⟩ := h
        rcases List.mem_cons.1 ha with rfl | ha2
        · cases hv
        · exact ⟨a, ha2, hv⟩
      simp only [extern_call_args, ih hr]
      rfl
    | ImageParamArg n =>
      have hr : ∃ a ∈ rest, a.is_valid = false := by
        obtain ⟨a, ha, hv⟩ := h
        rcases List.mem_cons.1 ha with rfl | ha2
        · cases hv
        · exact ⟨a, ha2, hv⟩
      simp only [extern_call_args, ih hr]
      rfl

theorem extern_call_args_ok (r : Renderer) (args : List ExternFuncArgument)
    (h : ∀ a ∈ args, a.is_valid = true) : ∃ l, extern_call_args r args = .ok l := by
  induction args with
  | nil => exact ⟨[], rfl⟩
  | cons b rest ih =>
    obtain ⟨l, hl⟩ := ih (fun a ha => h a (List.mem_cons_of_mem _ ha))
    cases b with
    | UndefinedArg =>
      have := h _ (List.mem_cons_self _ _)
      cases this
    | FuncArg g => exact ⟨_, by simp only [extern_call_args, hl]; rfl⟩
    | BufferArg n => exact ⟨_, by simp only [extern_call_args, hl]; rfl⟩
    | ExprArg e => exact ⟨_, by simp only [extern_call_args, hl]; rfl⟩
    | ImageParamArg n => exact ⟨_, by simp only [extern_call_args, hl]; rfl⟩

/-- The rendering succeeds when the function has no extern definition or all
its extern arguments are of a valid kind. -/
theorem print_function_ok (r : Renderer) (f : Function)
    (h : f.has_extern_definition = true → ∀ a ∈ f.extern_arguments, a.is_valid = true) :
    ∃ s, print_function r f = .ok s := by
  unfold print_function
  by_cases hext : f.has_extern_definition = true
  · obtain ⟨l, hl⟩ := extern_call_args_ok r f.extern_arguments (h hext)
    rw [if_pos hext, hl]
    exact ⟨_, rfl⟩
  · rw [if_neg hext]
    exact ⟨_, rfl⟩

theorem stray_read_cons {f : Function} {i : Nat} {v : Expr} {rest : List Expr}
    (h : stray_read f (i + 1) rest) : stray_read f i (v :: rest) := by
  obtain ⟨k, name, xs, func, vi, h1, h2, h3⟩ := h
  refine ⟨k + 1, name, xs, func, vi, by simpa using h1, h2, ?_⟩
  omega

theorem values_loop_run_cases (f : Function) (nc : NumCallers) (vs : List Expr) :
    ∀ (i : Nat) (prod : String),
      values_loop_run f nc i prod vs = .ok (values_loop f nc i prod vs) ∨
      (values_loop_run f nc i prod vs = .error out_of_range ∧ stray_read f i vs) := by
  induction vs with
  | nil => intro i prod; exact Or.inl rfl
  | cons val rest ih =>
    intro i prod
    have next : ∀ q,
        values_loop_run f nc (i + 1) q rest = .ok (values_loop f nc (i + 1) q rest) ∨
        (values_loop_run f nc (i + 1) q rest = .error out_of_range ∧
          stray_read f i (val :: rest)) := by
      intro q
      rcases ih (i + 1) q with h | ⟨h1, h2⟩
      · exact Or.inl h
      · exact Or.inr ⟨h1, stray_read_cons h2⟩
    have plain : ∀ (_ : values_loop_run f nc i prod (val :: rest) =
          if prod ≠ "" then .ok "" else values_loop_run f nc (i + 1) prod rest)
        (_ : values_loop f nc i prod (val :: rest) =
          if prod ≠ "" then "" else values_loop f nc (i + 1) prod rest),
        values_loop_run f nc i prod (val :: rest) =
            .ok (values_loop f nc i prod (val :: rest)) ∨
          (values_loop_run f nc i prod (val :: rest) = .error out_of_range ∧
            stray_read f i (val :: rest)) := by
      intro e1 e2
      rw [e1, e2]
      by_cases hp : prod ≠ ""
      · rw [if_pos hp, if_pos hp]
        exact Or.inl rfl
      · rw [if_neg hp, if_neg hp]
        exact next prod
    cases val with
    | IntImm a => exact plain (by simp only [values_loop_run]) (by simp only [values_loop])
    | StringImm a => exact plain (by simp only [values_loop_run]) (by simp only [values_loop])
    | Variable a => exact plain (by simp only [values_loop_run]) (by simp only [values_loop])
    | Add a b => exact plain (by simp only [values_loop_run]) (by simp only [values_loop])
    | Sub a b => exact plain (by simp only [values_loop_run]) (by simp only [values_loop])
    | Mul a b => exact plain (by simp only [values_loop_run]) (by simp only [values_loop])
    | Call name xs ct func vi =>
      simp only [values_loop_run, values_loop]
      by_cases hct : ct = CallType.Halide
      · rw [if_pos hct, if_pos hct]
        by_cases c1 : prod ≠ "" ∧ prod ≠ name
        · rw [if_pos c1, if_pos c1]
          exact Or.inl rfl
        rw [if_neg c1, if_neg c1]
        by_cases c2 : (match NumCallers.find nc name with
                 | some n => decide (n > 1)
                 | none => false) = true
        · rw [if_pos c2, if_pos c2]
          exact Or.inl rfl
        rw [if_neg c2, if_neg c2]
        by_cases c3 : f.dimensions ≠ func.dimensions
        · rw [if_pos c3, if_pos c3]
          exact Or.inl rfl
        rw [if_neg c3, if_neg c3]
        by_cases c4 : (i : Int) ≠ vi
        · rw [if_pos c4, if_pos c4]
          exact Or.inl rfl
        rw [if_neg c4, if_neg c4]
        by_cases c5 : (!args_loop f.args func.args) = true
        · rw [if_pos c5, if_pos c5]
          by_cases c6 : i < f.dimensions
          · rw [if_pos c6]
            exact Or.inl rfl
          · rw [if_neg c6]
            refine Or.inr ⟨rfl, 0, name, xs, func, vi, ?_, by simpa using c5, by omega⟩
            rw [hct]
            simp
        rw [if_neg c5, if_neg c5]
        exact next name
      · rw [if_neg hct, if_neg hct]
        exact next prod

/-- Whenever the loop with diagnostics returns, it returns the value of the
loop. -/
theorem values_loop_run_sound (f : Function) (nc : NumCallers) (vs : List Expr) (i : Nat)
    (prod s : String) (h : values_loop_run f nc i prod vs = .ok s) :
    s = values_loop f nc i prod vs := by
  rcases values_loop_run_cases f nc vs i prod with h1 | ⟨h1, _⟩
  · rw [h1] at h
    cases h
    rfl
  · rw [h1] at h
    cases h

/-- The loop with diagnostics returns when no read is out of range. -/
theorem values_loop_run_ok (f : Function) (nc : NumCallers) (vs : List Expr) (i : Nat)
    (prod : String) (h : ¬ stray_read f i vs) :
    values_loop_run f nc i prod vs = .ok (values_loop f nc i prod vs) := by
  rcases values_loop_run_cases f nc vs i prod with h1 | ⟨_, h2⟩
  · exact h1
  · exact absurd h2 h

theorem with_diagnostic_sound (r : Renderer) (f : Function) (prod s : String)
    (h : with_diagnostic r f prod = .ok s) : s = prod := by
  unfold with_diagnostic at h
  by_cases hp : prod ≠ ""
  · rw [if_pos hp] at h
    cases hpr : print_function r f with
    | error e =>
      rw [hpr] at h
      cases h
    | ok t =>
      rw [hpr] at h
      cases h
      rfl
  · rw [if_neg hp] at h
    cases h
    rfl

theorem with_diagnostic_ok (r : Renderer) (f : Function) (prod : String)
    (h : f.has_extern_definition = true → ∀ a ∈ f.extern_arguments, a.is_valid = true) :
    with_diagnostic r f prod = .ok prod := by
  unfold with_diagnostic
  by_cases hp : prod ≠ ""
  · obtain ⟨s, hs⟩ := print_function_ok r f h
    rw [if_pos hp, hs]
  · rw [if_neg hp]

/-- When the rendering succeeds and no read is out of range, the call returns
the classifier's name. -/
theorem producer_run_ok (r : Renderer) (f : Function) (nc : NumCallers)
    (h : f.has_extern_definition = true → ∀ a ∈ f.extern_arguments, a.is_valid = true)
    (h2 : ¬ stray_read f 0 f.values) :
    get_pointwise_copy_producer_run r f nc = .ok (get_pointwise_copy_producer f nc) := by
  unfold get_pointwise_copy_producer_run get_pointwise_copy_producer
  by_cases hu : f.has_update_definition = true
  · rw [if_pos hu, if_pos hu]
  · rw [if_neg hu, if_neg hu]
    by_cases hb : f.has_extern_definition = true ∧ f.extern_function_name = "halide_buffer_copy"
    · rw [if_pos hb, if_pos hb]
      exact with_diagnostic_ok r f _ h
    · rw [if_neg hb, if_neg hb, values_loop_run_ok f nc f.values 0 "" h2]
      exact with_diagnostic_ok r f _ h

theorem collect_pairs_run_ok (r : Renderer) (nc : NumCallers) (env : Env)
    (h : ∀ it ∈ env, it.2.has_extern_definition = true →
      ∀ a ∈ it.2.extern_arguments, a.is_valid = true)
    (h2 : ∀ it ∈ env, ¬ stray_read it.2 0 it.2.values) :
    ∀ acc, collect_pairs_run r nc env acc = .ok (acc ++ env.filterMap (pair_of_entry nc)) := by
  induction env with
  | nil => intro acc; simp [collect_pairs_run]
  | cons it rest ih =>
    intro acc
    have ih2 := ih (fun jt hj => h jt (List.mem_cons_of_mem _ hj))
      (fun jt hj => h2 jt (List.mem_cons_of_mem _ hj))
    have hrun := producer_run_ok r it.2 nc (h it (List.mem_cons_self _ _))
      (h2 it (List.mem_cons_self _ _))
    rw [collect_pairs_run, hrun]
    by_cases hin : it.2.is_inlined = true
    · rw [if_pos hin, ih2]
      simp [List.filterMap_cons, pair_of_entry, hin]
    · rw [if_neg hin]
      simp only
      rw [ih2]
      by_cases hp : get_pointwise_copy_producer it.2 nc = ""
      · simp [List.filterMap_cons, pair_of_entry, hin, hp]
      · simp [List.filterMap_cons, pair_of_entry, hin, hp]

/-- On an environment none of whose extern arguments is of an invalid kind
and none of whose functions has a read out of range, the collector returns,
and returns the list of `get_pointwise_copies`. -/
theorem get_pointwise_copies_run_ok (r : Renderer) (env : Env)
    (h : ∀ it ∈ env, it.2.has_extern_definition = true →
      ∀ a ∈ it.2.extern_arguments, a.is_valid = true)
    (h2 : ∀ it ∈ env, ¬ stray_read it.2 0 it.2.values) :
    get_pointwise_copies_run r env = .ok (get_pointwise_copies env) := by
  unfold get_pointwise_copies_run get_pointwise_copies
  rw [collect_pairs_run_ok r _ env h h2, collect_pairs_eq]
  simp

/-! ## What the call returns is the classifier's result -/

theorem producer_run_sound (r : Renderer) (f : Function) (nc : NumCallers) (s : String)
    (h : get_pointwise_copy_producer_run r f nc = .ok s) :
    s = get_pointwise_copy_producer f nc := by
  unfold get_pointwise_copy_producer_run at h
  unfold get_pointwise_copy_producer
  by_cases hu : f.has_update_definition = true
  · rw [if_pos hu] at h
    rw [if_pos hu]
    cases h
    rfl
  · rw [if_neg hu] at h
    rw [if_neg hu]
    by_cases hb : f.has_extern_definition = true ∧ f.extern_function_name = "halide_buffer_copy"
    · rw [if_pos hb] at h
      rw [if_pos hb]
      exact with_diagnostic_sound r f _ s h
    · rw [if_neg hb] at h
      rw [if_neg hb]
      cases hv : values_loop_run f nc 0 "" f.values with
      | error e =>
        rw [hv] at h
        cases h
      | ok prod =>
        rw [hv] at h
        simp only at h
        rw [with_diagnostic_sound r f _ s h]
        exact values_loop_run_sound f nc f.values 0 "" prod hv

theorem collect_pairs_run_sound (r : Renderer) (nc : NumCallers) (env : Env) :
    ∀ acc l, collect_pairs_run r nc env acc = .ok l →
      l = acc ++ env.filterMap (pair_of_entry nc) := by
  induction env with
  | nil =>
    intro acc l h
    simp only [collect_pairs_run] at h
    cases h
    simp
  | cons it rest ih =>
    intro acc l h
    rw [collect_pairs_run] at h
    by_cases hin : it.2.is_inlined = true
    · rw [if_pos hin] at h
      rw [ih acc l h]
      simp [List.filterMap_cons, pair_of_entry, hin]
    · rw [if_neg hin] at h
      cases hrun : get_pointwise_copy_producer_run r it.2 nc with
      | error e =>
        rw [hrun] at h
        cases h
      | ok s =>
        rw [hrun] at h
        simp only at h
        have hs := producer_run_sound r it.2 nc s hrun
        subst hs
        rw [ih _ l h]
        by_cases hp : get_pointwise_copy_producer it.2 nc = ""
        · simp [List.filterMap_cons, pair_of_entry, hin, hp]
        · simp [List.filterMap_cons, pair_of_entry, hin, hp]

/-- Whenever the collector returns, it returns the list of
`get_pointwise_copies`. -/
theorem get_pointwise_copies_run_sound (r : Renderer) (env : Env) (l : List CopyPair)
    (h : get_pointwise_copies_run r env = .ok l) : l = get_pointwise_copies env := by
  unfold get_pointwise_copies_run at h
  rw [collect_pairs_run_sound r _ env [] l h]
  unfold get_pointwise_copies
  rw [collect_pairs_eq]
  simp

/-! ## C8: references to unnamed functions -/

/-- The extern branch returns, with the name its loop computes, whenever
every extern argument is of a valid kind. -/
theorem buffer_copy_run (r : Renderer) (f : Function) (nc : NumCallers)
    (hupd : f.has_update_definition = false) (hext : f.is_buffer_copy)
    (hvalid : ∀ a ∈ f.extern_arguments, a.is_valid = true) :
    get_pointwise_copy_producer_run r f nc =
      .ok (names_loop "" (func_ref_names f.extern_arguments)) := by
  unfold get_pointwise_copy_producer_run
  have h2 : f.has_extern_definition = true ∧ f.extern_function_name = "halide_buffer_copy" :=
    hext
  rw [hupd, if_neg (by simp), if_pos h2, with_diagnostic_ok r f _ (fun _ => hvalid),
    extern_loop_eq_names_loop]

/-- On extern arguments of valid kinds the extern branch returns `p` when
the function references are non-empty and all name the non-empty `p`, and
returns the empty name when two references carry different non-empty names
or when there is no function reference. -/
theorem buffer_copy_run_names (r : Renderer) (f : Function) (nc : NumCallers)
    (hupd : f.has_update_definition = false) (hext : f.is_buffer_copy)
    (hvalid : ∀ a ∈ f.extern_arguments, a.is_valid = true) :
    (∀ p, p ≠ "" → func_ref_names f.extern_arguments ≠ [] →
      (∀ n ∈ func_ref_names f.extern_arguments, n = p) →
      get_pointwise_copy_producer_run r f nc = .ok p) ∧
    (∀ a ∈ func_ref_names f.extern_arguments, ∀ b ∈ func_ref_names f.extern_arguments,
      a ≠ "" → b ≠ "" → a ≠ b → get_pointwise_copy_producer_run r f nc = .ok "") ∧
    (func_ref_names f.extern_arguments = [] →
      get_pointwise_copy_producer_run r f nc = .ok "") := by
  rw [buffer_copy_run r f nc hupd hext hvalid]
  refine ⟨?_, ?_, ?_⟩
  · intro p _ hne hall
    rw [names_loop_same p _ "" (Or.inl rfl) hall, if_neg hne]
  · intro a ha b hb hane hbne hab
    by_cases hres : names_loop "" (func_ref_names f.extern_arguments) = ""
    · rw [hres]
    · obtain ⟨_, h2⟩ := names_loop_accepts _ "" hres
      exact absurd ((h2 a ha hane).trans (h2 b hb hbne).symm) hab
  · intro hnil
    rw [hnil]
    rfl

/-- C8 (the code at the failing input): the extern `halide_buffer_copy`
whose function references are, in this order, a function with the empty name
and the function `a` is classified as a copy of `a`, although two references
carry different names; with the two references in the other order it is
rejected. -/
theorem c8_unnamed_reference_not_rejected (r : Renderer) :
    copy_of_unnamed_and_a.has_update_definition = false ∧
    copy_of_unnamed_and_a.is_buffer_copy ∧
    func_ref_names copy_of_unnamed_and_a.extern_arguments = ["", "a"] ∧
    get_pointwise_copy_producer_run r copy_of_unnamed_and_a [] = .ok "a" ∧
    func_ref_names copy_of_a_and_unnamed.extern_arguments = ["a", ""] ∧
    get_pointwise_copy_producer_run r copy_of_a_and_unnamed [] = .ok "" :=
  ⟨rfl, by decide, by decide, rfl, by decide, rfl⟩

/-! ## C12, C13: extern functions -/

theorem no_stray_read_of_no_call (f : Function) (i : Nat) (vs : List Expr)
    (h : ∀ v ∈ vs, ∀ name xs func vi, v ≠ Expr.Call name xs CallType.Halide func vi) :
    ¬ stray_read f i vs := by
  rintro ⟨k, name, xs, func, vi, hk, _, _⟩
  exact h _ (List.getElem?_mem hk) name xs func vi rfl

/-- C12: for every function that has an extern definition whose extern
function is not `halide_buffer_copy`, and every caller-count map, the
classifier returns the empty name (the call returns, and returns `""`),
whatever the extern arguments contain, malformed ones included.  The function
is taken with no value slot that is an internal call, which holds in
particular when it has no values, as every function with an extern
definition has (an extern definition excludes a pure definition). -/
theorem c12_opaque_externs_are_no_copies (f : Function) (nc : NumCallers)
    (_hext : f.has_extern_definition = true)
    (hname : f.extern_function_name ≠ "halide_buffer_copy")
    (hvals : ∀ v ∈ f.values, ∀ name xs func vi,
      v ≠ Expr.Call name xs CallType.Halide func vi) :
    get_pointwise_copy_producer f nc = "" ∧
    ∀ r : Renderer, get_pointwise_copy_producer_run r f nc = .ok "" := by
  have hnot : ¬ (f.has_extern_definition = true ∧
      f.extern_function_name = "halide_buffer_copy") := fun hb => hname hb.2
  have hval : get_pointwise_copy_producer f nc = "" := by
    unfold get_pointwise_copy_producer
    by_cases hupd : f.has_update_definition = true
    · rw [if_pos hupd]
    · rw [if_neg hupd, if_neg hnot]
      exact values_loop_no_call f nc f.values hvals 0
  refine ⟨hval, ?_⟩
  intro r
  unfold get_pointwise_copy_producer_run
  by_cases hupd : f.has_update_definition = true
  · rw [if_pos hupd]
  · rw [if_neg hupd, if_neg hnot,
      values_loop_run_ok f nc f.values 0 "" (no_stray_read_of_no_call f 0 f.values hvals),
      values_loop_no_call f nc f.values hvals 0]
    rfl

/-- C12 (witness): the extern function `opaque_with_arguments`, whose extern
arguments hold an entry of no valid kind and a function reference, gets the
empty name, and the call returns. -/
theorem c12_opaque_externs_are_no_copies_witness :
    opaque_with_arguments.has_extern_definition = true ∧
    opaque_with_arguments.extern_function_name ≠ "halide_buffer_copy" ∧
    opaque_with_arguments.values = [] ∧
    (get_pointwise_copy_producer opaque_with_arguments [("p", 1)] = "" ∧
      ∀ r : Renderer,
        get_pointwise_copy_producer_run r opaque_with_arguments [("p", 1)] = .ok "") :=
  ⟨rfl, by decide, rfl,
    c12_opaque_externs_are_no_copies opaque_with_arguments [("p", 1)] rfl (by decide)
      (fun v hv => by cases hv)⟩

/-- C13 (counterexample): in `env_buffer_copy` the consumer of the returned
pair is `c`, a function with an extern definition, and the classifier returns
the non-empty string `p` for it. -/
theorem c13_extern_consumer_returned :
    get_pointwise_copies env_buffer_copy = [⟨"p", "c"⟩] ∧
    (Env.lookup env_buffer_copy "c").map Function.has_extern_definition = some true ∧
    get_pointwise_copy_producer (buffer_copy_fn "c" [vx, vy] [.FuncArg (ptr_xy "p")])
      (build_num_callers env_buffer_copy) = "p" := by
  decide

/-- C13 (amended): a function with an extern definition gets the empty string
from the classifier, and is the consumer of no returned pair in any
environment, when its extern function is `halide_buffer_copy` and no extern
argument references a function, or when its extern function is another one
and none of its value slots is an internal call. -/
theorem c13_externs_that_are_ignored (f : Function) (nc : NumCallers)
    (hext : f.has_extern_definition = true)
    (hcase : (f.extern_function_name = "halide_buffer_copy" ∧
        func_ref_names f.extern_arguments = []) ∨
      (f.extern_function_name ≠ "halide_buffer_copy" ∧
        ∀ v ∈ f.values, ∀ name xs func vi,
          v ≠ Expr.Call name xs CallType.Halide func vi)) :
    get_pointwise_copy_producer f nc = "" ∧
    ∀ (env : Env), env.is_map → ∀ c, (c, f) ∈ env →
      ∀ p, (⟨p, c⟩ : CopyPair) ∉ get_pointwise_copies env := by
  have hempty : ∀ nc2, get_pointwise_copy_producer f nc2 = "" := by
    intro nc2
    by_cases hupd : f.has_update_definition = true
    · unfold get_pointwise_copy_producer
      rw [if_pos hupd]
    · have hupd2 : f.has_update_definition = false := by simpa using hupd
      rcases hcase with ⟨hname, hrefs⟩ | ⟨hname, hvals⟩
      · rw [producer_buffer_copy nc2 hupd2 ⟨hext, hname⟩, hrefs]
        rfl
      · rw [producer_eq_values_loop nc2 hupd2 (fun hb => hname hb.2)]
        exact values_loop_no_call f nc2 f.values hvals 0
  refine ⟨hempty nc, ?_⟩
  intro env hmap c hc p hmem
  obtain ⟨it, hit, _, hprod, hne, hcons⟩ := (mem_collect_pairs _ env _).1 hmem
  have hit2 : it = (c, f) := is_map_unique hmap hit hc hcons.symm
  subst hit2
  simp only at hprod hne
  rw [hempty] at hprod
  exact hne hprod.symm

theorem env_opaque_only_is_map : Env.is_map env_opaque_only := by
  simp [Env.is_map, env_opaque_only]

/-- C13 (witness): the extern function `opaque_routine` is not classified as a
copy and is the consumer of no pair of `env_opaque_only`. -/
theorem c13_externs_that_are_ignored_witness :
    opaque_routine.has_extern_definition = true ∧
    opaque_routine.extern_function_name ≠ "halide_buffer_copy" ∧
    get_pointwise_copy_producer opaque_routine [] = "" ∧
    Env.is_map env_opaque_only ∧
    ∀ p, (⟨p, "e"⟩ : CopyPair) ∉ get_pointwise_copies env_opaque_only :=
  have hcase : (opaque_routine.extern_function_name = "halide_buffer_copy" ∧
        func_ref_names opaque_routine.extern_arguments = []) ∨
      (opaque_routine.extern_function_name ≠ "halide_buffer_copy" ∧
        ∀ v ∈ opaque_routine.values, ∀ name xs func vi,
          v ≠ Expr.Call name xs CallType.Halide func vi) :=
    Or.inr ⟨by decide, fun v hv => by cases hv⟩
  ⟨rfl, by decide, (c13_externs_that_are_ignored opaque_routine [] rfl hcase).1,
    env_opaque_only_is_map,
    (c13_externs_that_are_ignored opaque_routine [] rfl hcase).2 env_opaque_only
      env_opaque_only_is_map "e" (List.mem_cons_self _ _)⟩

/-! ## C14: extern arguments of no valid kind -/

/-- C14 (the code at the failing input): `env_malformed` holds the non-inlined
extern function `c` whose extern argument is of no valid kind; rendering `c`
raises the internal error, but the classifier skips the argument, returns the
empty name without rendering, and the collector returns the empty list.  The
call aborts only when such a function is also classified as a copy, as
`malformed_copy_of_p` is. -/
theorem c14_malformed_argument_skipped (r : Renderer) :
    malformed_copy.has_extern_definition = true ∧
    malformed_copy.is_inlined = false ∧
    (∃ a ∈ malformed_copy.extern_arguments, a.is_valid = false) ∧
    print_function r malformed_copy = .error "Bad ExternFuncArgument type\n" ∧
    get_pointwise_copy_producer_run r malformed_copy (build_num_callers env_malformed) =
      .ok "" ∧
    get_pointwise_copies_run r env_malformed = .ok [] ∧
    get_pointwise_copy_producer_run r malformed_copy_of_p [] =
      .error "Bad ExternFuncArgument type\n" :=
  ⟨rfl, rfl, ⟨.UndefinedArg, List.mem_cons_self _ _, rfl⟩, rfl, rfl, rfl, rfl⟩

/-! ## C17: two sources and the diagnostic of the argument check -/

/-- Whenever the call returns for a function with no extern definition two
of whose value slots are internal calls to callees with different non-empty
names, it returns the empty name; the only other outcome is the read out of
range. -/
theorem two_sources_run (r : Renderer) (f : Function) (nc : NumCallers)
    (hext : f.has_extern_definition = false)
    (i k : Nat) (a b : String) (xs ys : List Expr) (fa fb : FunctionPtr Expr) (va vb : Int)
    (hi : f.values[i]? = some (Expr.Call a xs CallType.Halide fa va))
    (hk : f.values[k]? = some (Expr.Call b ys CallType.Halide fb vb))
    (ha : a ≠ "") (hb : b ≠ "") (hab : a ≠ b) :
    get_pointwise_copy_producer_run r f nc = .ok "" ∨
    get_pointwise_copy_producer_run r f nc = .error out_of_range := by
  have hval := two_sources_value f nc hext i k a b xs ys fa fb va vb hi hk ha hb hab
  have hnot : ¬ (f.has_extern_definition = true ∧
      f.extern_function_name = "halide_buffer_copy") := by
    rw [hext]
    simp
  unfold get_pointwise_copy_producer_run
  unfold get_pointwise_copy_producer at hval
  by_cases hupd : f.has_update_definition = true
  · rw [if_pos hupd]
    exact Or.inl rfl
  · rw [if_neg hupd, if_neg hnot] at hval ⊢
    rcases values_loop_run_cases f nc f.values 0 "" with h1 | ⟨h1, _⟩
    · rw [h1, hval]
      exact Or.inl rfl
    · rw [h1]
      exact Or.inr rfl

/-- C17 (the code at the failing input): `f(x) = {x + 1, a(x)[1], b(x)[2]}`
has no update and no extern definition and its slots 1 and 2 are internal
calls to the different callees `a` and `b`; at slot 1 the argument check
fails (`x` against `u`) and its diagnostic reads `f.args()[1]` in a vector
of one element, so the call does not return the empty name, and neither does
the collector on `env_two_sources`. -/
theorem c17_two_sources_read_out_of_range (r : Renderer) :
    two_sources_one_dim.has_update_definition = false ∧
    two_sources_one_dim.has_extern_definition = false ∧
    two_sources_one_dim.dimensions = 1 ∧
    two_sources_one_dim.values[1]? =
      some (Expr.Call "a" [vx] CallType.Halide ⟨"a", [vu]⟩ 1) ∧
    two_sources_one_dim.values[2]? =
      some (Expr.Call "b" [vx] CallType.Halide ⟨"b", [vu]⟩ 2) ∧
    equal vx vu = false ∧
    get_pointwise_copy_producer_run r two_sources_one_dim
      (build_num_callers env_two_sources) = .error out_of_range ∧
    get_pointwise_copies_run r env_two_sources = .error out_of_range :=
  ⟨rfl, rfl, rfl, rfl, rfl, by decide, rfl, rfl⟩

/-! ## C16: slots after the first internal call -/

/-- C16 (the code at the failing input): `t(x, y) = {p(x, y)[0], sin_f32(x)}`,
whose slot 1 is a `Call` that is not of the `Halide` kind and follows the
internal call of slot 0, is classified as a copy of `p`; with the sum `x + y`
in slot 1 instead, the function is rejected. -/
theorem c16_extern_call_slot_accepted (r : Renderer) :
    get_pointwise_copy_producer copy_then_extern_call [("p", 1)] = "p" ∧
    get_pointwise_copy_producer_run r copy_then_extern_call [("p", 1)] = .ok "p" ∧
    get_pointwise_copy_producer copy_then_sum [("p", 1)] = "" :=
  ⟨by decide, rfl, by decide⟩

/-- C15 (witness): `output(x, y) = work(x, y)` with `work` counted once. -/
theorem c15_all_call_characterisation_witness :
    (∀ v ∈ (plain_fn "output" [call_xy "work" [vx, vy] 0]).values, ∃ name xs func vi,
      v = Expr.Call name xs CallType.Halide func vi ∧ name ≠ "") ∧
    (get_pointwise_copy_producer (plain_fn "output" [call_xy "work" [vx, vy] 0])
        [("work", 1)] = "work" ↔
      (plain_fn "output" [call_xy "work" [vx, vy] 0]).values ≠ [] ∧
      ∀ (i : Nat) v, (plain_fn "output" [call_xy "work" [vx, vy] 0]).values[i]? = some v →
        slot_copies (plain_fn "output" [call_xy "work" [vx, vy] 0]) [("work", 1)] "work" i v) :=
  have h : ∀ v ∈ (plain_fn "output" [call_xy "work" [vx, vy] 0]).values, ∃ name xs func vi,
      v = Expr.Call name xs CallType.Halide func vi ∧ name ≠ "" := by
    intro v hv
    simp only [plain_fn, List.mem_singleton] at hv
    exact ⟨"work", [vx, vy], ptr_xy "work", 0, hv, by decide⟩
  ⟨h, (c15_all_call_characterisation (plain_fn "output" [call_xy "work" [vx, vy] 0])
    [("work", 1)] rfl rfl h).1 "work" (by decide)⟩

/-! ## C19: rendering of plain functions -/

theorem intercalate_go_eq (render : Expr → String) :
    ∀ (l : List Expr) (a : Expr) (acc : String),
      String.intercalate.go (acc ++ render a) ", " (l.map render) =
        acc ++ print_separated render (a :: l) := by
  intro l
  induction l with
  | nil =>
    intro a acc
    simp [String.intercalate.go, print_separated]
  | cons b rest ih =>
    intro a acc
    have h := ih b (acc ++ render a ++ ", ")
    simp only [List.map_cons, String.intercalate.go, print_separated]
    rw [h]
    simp only [String.append_assoc]

theorem print_separated_eq_intercalate (render : Expr → String) (l : List Expr) :
    print_separated render l = ", ".intercalate (l.map render) := by
  cases l with
  | nil => rfl
  | cons a rest =>
    have h := intercalate_go_eq render rest a ""
    simp only [String.empty_append] at h
    simp only [List.map_cons, String.intercalate]
    exact h.symm

/-- C19: for every function without an extern definition the rendering
succeeds and is the name, `(`, the renderings of the index arguments joined by
`, `, `) = `, and the renderings of the values joined by `, `, the latter
enclosed in braces exactly when there is more than one value. -/
theorem c19_print_plain_function (r : Renderer) (f : Function)
    (hext : f.has_extern_definition = false) :
    print_function r f =
      .ok (f.name ++ "(" ++ ", ".intercalate (f.args.map r.expr) ++ ") = " ++
        (if f.values.length > 1 then
          "\x7b" ++ ", ".intercalate (f.values.map r.expr) ++ "\x7d"
        else ", ".intercalate (f.values.map r.expr))) := by
  unfold print_function
  rw [hext, if_neg (by simp), print_separated_eq_intercalate, print_separated_eq_intercalate]
  by_cases hlen : f.values.length > 1
  · simp only [if_pos hlen, String.append_assoc]
  · simp only [if_neg hlen, String.append_assoc, String.append_empty, String.empty_append]

/-- C19 (witness): the renderings of `h(x, y) = g(x, y)` and of
`tile(x, y) = {f(x, y), g(x, y)}` under `sample_renderer`. -/
theorem c19_print_plain_function_witness :
    (plain_fn "h" [call_xy "g" [vx, vy] 0]).has_extern_definition = false ∧
    print_function sample_renderer (plain_fn "h" [call_xy "g" [vx, vy] 0]) =
      .ok "h(x, y) = ?" ∧
    print_function sample_renderer
      (plain_fn "tile" [call_xy "f" [vx, vy] 0, call_xy "g" [vx, vy] 0]) =
      .ok "tile(x, y) = \x7b?, ?\x7d" :=
  ⟨rfl,
    (c19_print_plain_function sample_renderer (plain_fn "h" [call_xy "g" [vx, vy] 0]) rfl).trans
      (congrArg Except.ok (by decide)),
    (c19_print_plain_function sample_renderer
      (plain_fn "tile" [call_xy "f" [vx, vy] 0, call_xy "g" [vx, vy] 0]) rfl).trans
      (congrArg Except.ok (by decide))⟩

end Halide
